import Mathlib

/-!
Verification of the dependency-file-generator core
(`src/rapids_dependency_file_generator/rapids_dependency_file_generator.py`).

The Python source is shallowly embedded: pure functions become Lean
functions; Python dictionaries become association lists (`List (key × value)`)
that preserve insertion order, looked up with `lookupA`; exceptions become
`Except String`; the YAML/TOML codecs, which the program treats as opaque
encode/decode services, are modelled coarsely (no claim depends on their
output text).
-/

namespace RDFG

/-- Association-list lookup, first match wins.  Models Python `dict[k]` /
`dict.get(k)` (keys of a Python dict are unique, so first match is the
unique match). -/
def lookupA {β : Type} : List (String × β) → String → Option β
  | [], _ => none
  | p :: ps, k => if p.1 = k then some p.2 else lookupA ps k

/-- Keys of an association list. -/
def keysA {β : Type} (m : List (String × β)) : List String := m.map Prod.fst

theorem keysA_nil {β : Type} : keysA ([] : List (String × β)) = [] := rfl

theorem keysA_cons {β : Type} (p : String × β) (ps : List (String × β)) :
    keysA (p :: ps) = p.1 :: keysA ps := rfl

theorem lookupA_eq_none_iff {β : Type} (m : List (String × β)) (k : String) :
    lookupA m k = none ↔ k ∉ keysA m := by
  induction m with
  | nil => simp [lookupA, keysA]
  | cons p ps ih =>
    by_cases h : p.1 = k
    · simp [lookupA, keysA, h]
    · rw [lookupA, if_neg h, ih]
      simp only [keysA, List.map_cons, List.mem_cons]
      constructor
      · intro hn hor
        rcases hor with he | hmem
        · exact h he.symm
        · exact hn hmem
      · intro hn hk
        exact hn (Or.inr hk)

theorem lookupA_isSome_of_mem_keys {β : Type} {m : List (String × β)} {k : String}
    (h : k ∈ keysA m) : ∃ v, lookupA m k = some v := by
  cases hv : lookupA m k with
  | none => exact absurd ((lookupA_eq_none_iff m k).mp hv) (by simpa using h)
  | some v => exact ⟨v, rfl⟩

theorem mem_keys_of_lookupA_eq_some {β : Type} {m : List (String × β)} {k : String} {v : β}
    (h : lookupA m k = some v) : k ∈ keysA m := by
  by_contra hk
  rw [← lookupA_eq_none_iff] at hk
  simp [hk] at h

/-! ### Sorted duplicate-free lists: the model of Python `sorted(set(l))` -/

section SortedSet

variable {α : Type} [LinearOrder α] [DecidableEq α]

/-- Insert into a strictly sorted list, skipping an element already present.
`foldr insertS []` computes Python's `sorted(set(l))`. -/
def insertS (x : α) : List α → List α
  | [] => [x]
  | y :: ys =>
    if x = y then y :: ys
    else if x < y then x :: y :: ys
    else y :: insertS x ys

/-- The model of Python `sorted(set(l))`: the distinct elements of `l` in
strictly increasing order. -/
def sortedSet (l : List α) : List α := l.foldr insertS []

theorem mem_insertS (a x : α) (l : List α) : a ∈ insertS x l ↔ a = x ∨ a ∈ l := by
  induction l with
  | nil => simp [insertS]
  | cons y ys ih =>
    by_cases hxy : x = y
    · subst hxy; simp [insertS]
    · by_cases hlt : x < y
      · simp [insertS, hxy, hlt]
      · simp [insertS, hxy, hlt, ih]; tauto

theorem insertS_sorted (x : α) {l : List α} (h : l.Pairwise (· < ·)) :
    (insertS x l).Pairwise (· < ·) := by
  induction l with
  | nil => simp [insertS]
  | cons y ys ih =>
    rcases List.pairwise_cons.mp h with ⟨hy, hys⟩
    by_cases hxy : x = y
    · simpa [insertS, hxy] using h
    · by_cases hlt : x < y
      · rw [show insertS x (y :: ys) = x :: y :: ys by simp [insertS, hxy, hlt]]
        refine List.pairwise_cons.mpr ⟨?_, h⟩
        intro b hb
        rw [List.mem_cons] at hb
        rcases hb with rfl | hb
        · exact hlt
        · exact lt_trans hlt (hy _ hb)
      · have hyx : y < x := lt_of_le_of_ne (not_lt.mp hlt) (Ne.symm hxy)
        rw [show insertS x (y :: ys) = y :: insertS x ys by simp [insertS, hxy, hlt]]
        refine List.pairwise_cons.mpr ⟨?_, ih hys⟩
        intro b hb
        rcases (mem_insertS b x ys).mp hb with rfl | hb
        · exact hyx
        · exact hy _ hb

theorem insertS_comm (x y : α) (l : List α) :
    insertS x (insertS y l) = insertS y (insertS x l) := by
  induction l with
  | nil =>
    by_cases hxy : x = y
    · subst hxy; rfl
    · rcases lt_trichotomy x y with h | h | h
      · simp [insertS, hxy, h, Ne.symm hxy, not_lt.mpr (le_of_lt h)]
      · exact absurd h hxy
      · simp [insertS, hxy, h, Ne.symm hxy, not_lt.mpr (le_of_lt h)]
  | cons z zs ih =>
    by_cases hxy : x = y
    · subst hxy; rfl
    · by_cases hyz : y = z
      · subst hyz
        rcases lt_trichotomy x y with h | h | h
        · simp [insertS, hxy, h, Ne.symm hxy, not_lt.mpr (le_of_lt h), ne_of_lt h]
        · exact absurd h hxy
        · simp [insertS, hxy, Ne.symm hxy, not_lt.mpr (le_of_lt h), ne_of_gt h, h]
      · by_cases hxz : x = z
        · subst hxz
          rcases lt_trichotomy x y with h | h | h
          · simp [insertS, hxy, hyz, h, Ne.symm hxy, not_lt.mpr (le_of_lt h),
              ne_of_gt h, not_lt.mpr (le_of_lt h)]
          · exact absurd h hxy
          · simp [insertS, hxy, hyz, Ne.symm hxy, not_lt.mpr (le_of_lt h), ne_of_lt h, h]
        · rcases lt_trichotomy x z with hx | hx | hx
          · rcases lt_trichotomy y z with hy | hy | hy
            · rcases lt_trichotomy x y with h | h | h
              · simp [insertS, hxy, hyz, hxz, hx, hy, h, Ne.symm hxy,
                  not_lt.mpr (le_of_lt h)]
              · exact absurd h hxy
              · simp [insertS, hxy, hyz, hxz, hx, hy, Ne.symm hxy,
                  not_lt.mpr (le_of_lt h), h]
            · exact absurd hy hyz
            · have hxly : x < y := lt_trans hx hy
              simp [insertS, hxy, hyz, hxz, hx, hy, Ne.symm hxy, hxly,
                not_lt.mpr (le_of_lt hy), not_lt.mpr (le_of_lt hxly)]
          · exact absurd hx hxz
          · rcases lt_trichotomy y z with hy | hy | hy
            · have hylx : y < x := lt_trans hy hx
              simp [insertS, hxy, hyz, hxz, hx, hy, Ne.symm hxy,
                not_lt.mpr (le_of_lt hx), not_lt.mpr (le_of_lt hylx), ne_of_gt hylx]
            · exact absurd hy hyz
            · simp [insertS, hxy, hyz, hxz, not_lt.mpr (le_of_lt hx),
                not_lt.mpr (le_of_lt hy), ih]

theorem sortedSet_perm {l l' : List α} (h : l.Perm l') : sortedSet l = sortedSet l' := by
  induction h with
  | nil => rfl
  | cons x _ ih => simp [sortedSet, List.foldr_cons] at *; rw [ih]
  | swap x y l => simp [sortedSet, List.foldr_cons, insertS_comm]
  | trans _ _ ih₁ ih₂ => exact ih₁.trans ih₂

theorem sortedSet_sorted (l : List α) : (sortedSet l).Pairwise (· < ·) := by
  induction l with
  | nil => simp [sortedSet]
  | cons x xs ih => exact insertS_sorted x ih

theorem mem_sortedSet (a : α) (l : List α) : a ∈ sortedSet l ↔ a ∈ l := by
  induction l with
  | nil => simp [sortedSet]
  | cons x xs ih => simp [sortedSet, mem_insertS, ih] at *; tauto

theorem sortedSet_nodup (l : List α) : (sortedSet l).Nodup :=
  (sortedSet_sorted l).imp ne_of_lt

/-- Two strictly sorted lists with the same members are equal. -/
theorem eq_of_sorted_of_mem_iff :
    ∀ {l l' : List α}, l.Pairwise (· < ·) → l'.Pairwise (· < ·) →
      (∀ a, a ∈ l ↔ a ∈ l') → l = l'
  | [], [], _, _, _ => rfl
  | [], b :: bs, _, _, hm => absurd ((hm b).mpr (by simp)) (by simp)
  | a :: as, [], _, _, hm => absurd ((hm a).mp (by simp)) (by simp)
  | a :: as, b :: bs, hl, hl', hm => by
    rcases List.pairwise_cons.mp hl with ⟨ha, has⟩
    rcases List.pairwise_cons.mp hl' with ⟨hb, hbs⟩
    have hab : a = b := by
      have h1 := (hm a).mp (by simp)
      rw [List.mem_cons] at h1
      rcases h1 with h | h
      · exact h
      · have h2 := (hm b).mpr (by simp)
        rw [List.mem_cons] at h2
        rcases h2 with h' | h'
        · exact h'.symm
        · exact absurd (lt_trans (hb a h) (ha b h')) (lt_irrefl b)
    subst hab
    have htails : ∀ x, x ∈ as ↔ x ∈ bs := by
      intro x
      constructor
      · intro hx
        have h1 := (hm x).mp (by simp [hx])
        rw [List.mem_cons] at h1
        rcases h1 with h | h
        · subst h; exact absurd (ha x hx) (lt_irrefl x)
        · exact h
      · intro hx
        have h1 := (hm x).mpr (by simp [hx])
        rw [List.mem_cons] at h1
        rcases h1 with h | h
        · subst h; exact absurd (hb x hx) (lt_irrefl x)
        · exact h
    rw [eq_of_sorted_of_mem_iff has hbs htails]

/-- `sorted(set(·))` applied to a list that is already strictly sorted is the
identity. -/
theorem sortedSet_eq_self {l : List α} (h : l.Pairwise (· < ·)) : sortedSet l = l :=
  eq_of_sorted_of_mem_iff (sortedSet_sorted l) h (fun a => mem_sortedSet a l)

theorem sortedSet_idem (l : List α) : sortedSet (sortedSet l) = sortedSet l :=
  sortedSet_eq_self (sortedSet_sorted l)

theorem sortedSet_congr {l l' : List α} (h : ∀ a, a ∈ l ↔ a ∈ l') :
    sortedSet l = sortedSet l' :=
  eq_of_sorted_of_mem_iff (sortedSet_sorted l) (sortedSet_sorted l')
    (fun a => by rw [mem_sortedSet, mem_sortedSet]; exact h a)

theorem sortedSet_sortedSet_append (a b : List α) :
    sortedSet (sortedSet a ++ b) = sortedSet (a ++ b) :=
  sortedSet_congr (fun x => by simp [mem_sortedSet])

end SortedSet

/-! ### The dependency-list data model and `dedupe` -/

/-- An element of a dependency list: either a plain package specifier
(a Python `str`) or an extra-group mapping (a Python `dict` from group name
to package list, kept in insertion order like a Python dict). -/
inductive Dep where
  | str (s : String)
  | dict (m : List (String × List String))
deriving DecidableEq, Repr

/-- The plain string specifiers of a dependency list
(Python `[dep for dep in dependencies if not isinstance(dep, dict)]`). -/
def strDeps (l : List Dep) : List String :=
  l.filterMap fun d => match d with
    | .str s => some s
    | .dict _ => none

/-- The extra-group mappings of a dependency list
(Python `filter(lambda dep: isinstance(dep, dict), dependencies)`). -/
def dictDeps (l : List Dep) : List (List (String × List String)) :=
  l.filterMap fun d => match d with
    | .str _ => none
    | .dict m => some m

/-- One step of the `dedupe` dict-merging loop body:
`dict_deps[key].extend(values); dict_deps[key] = sorted(set(dict_deps[key]))`.
The `defaultdict(list)` yields `[]` for an absent key, and a fresh key is
appended at the end (Python dict insertion order). -/
def updateAssoc : List (String × List String) → String → List String →
    List (String × List String)
  | [], k, vs => [(k, sortedSet vs)]
  | p :: ps, k, vs =>
    if p.1 = k then (p.1, sortedSet (p.2 ++ vs)) :: ps
    else p :: updateAssoc ps k vs

/-- Processing one extra-group mapping: the inner
`for key, values in dep.items()` loop of `dedupe`. -/
def stepDict (m : List (String × List String)) (kv : String × List String) :
    List (String × List String) :=
  updateAssoc m kv.1 kv.2

/-- The `dict_deps` accumulation of `dedupe`: fold the per-dict item loop
over every dict-typed dependency, starting from an empty `defaultdict`. -/
def buildDictDeps (ds : List (List (String × List String))) :
    List (String × List String) :=
  ds.foldl (fun m items => items.foldl stepDict m) []

/-- Embedding of `dedupe` (source lines 45-66): the non-dict dependencies
become `sorted(set(...))`; the dict dependencies are merged key-by-key into an
insertion-ordered map whose values are kept `sorted(set(...))`; the merged
dict is appended at the end only if it is non-empty. -/
def dedupe (dependencies : List Dep) : List Dep :=
  let deduped := (sortedSet (strDeps dependencies)).map Dep.str
  let dict_deps := buildDictDeps (dictDeps dependencies)
  if dict_deps = [] then deduped else deduped ++ [Dep.dict dict_deps]

/-! #### Lemmas about `updateAssoc` and `buildDictDeps` -/

theorem lookupA_updateAssoc_self (m : List (String × List String)) (k : String)
    (vs : List String) :
    lookupA (updateAssoc m k vs) k = some (sortedSet ((lookupA m k).getD [] ++ vs)) := by
  induction m with
  | nil => simp [updateAssoc, lookupA]
  | cons p ps ih =>
    by_cases h : p.1 = k
    · simp [updateAssoc, lookupA, h]
    · simp [updateAssoc, lookupA, h, ih]

theorem lookupA_updateAssoc_other (m : List (String × List String)) {k k' : String}
    (vs : List String) (hne : k' ≠ k) :
    lookupA (updateAssoc m k vs) k' = lookupA m k' := by
  have hkk : ¬ k = k' := fun hc => hne hc.symm
  induction m with
  | nil => simp [updateAssoc, lookupA, hkk]
  | cons p ps ih =>
    by_cases h : p.1 = k
    · subst h
      simp [updateAssoc, lookupA, hkk]
    · by_cases h' : p.1 = k'
      · simp only [updateAssoc, if_neg h, lookupA, if_pos h']
      · simp only [updateAssoc, if_neg h, lookupA, if_neg h', ih]

theorem updateAssoc_ne_nil (m : List (String × List String)) (k : String)
    (vs : List String) : updateAssoc m k vs ≠ [] := by
  cases m with
  | nil => simp [updateAssoc]
  | cons p ps =>
    by_cases h : p.1 = k <;> simp [updateAssoc, h]

theorem keysA_updateAssoc (m : List (String × List String)) (k : String)
    (vs : List String) :
    keysA (updateAssoc m k vs) =
      if k ∈ keysA m then keysA m else keysA m ++ [k] := by
  induction m with
  | nil => simp [updateAssoc, keysA]
  | cons p ps ih =>
    by_cases h : p.1 = k
    · subst h
      simp [updateAssoc, keysA]
    · have hkp : ¬ k = p.1 := fun hc => h hc.symm
      rw [updateAssoc, if_neg h, keysA_cons, keysA_cons, ih]
      by_cases hk : k ∈ keysA ps
      · rw [if_pos hk, if_pos (List.mem_cons.mpr (Or.inr hk))]
      · rw [if_neg hk, if_neg (fun hc => (List.mem_cons.mp hc).elim hkp hk)]
        rfl

theorem updateAssoc_of_not_mem_keys {m : List (String × List String)} {k : String}
    (vs : List String) (h : k ∉ keysA m) :
    updateAssoc m k vs = m ++ [(k, sortedSet vs)] := by
  induction m with
  | nil => simp [updateAssoc]
  | cons p ps ih =>
    simp only [keysA, List.map_cons, List.mem_cons] at h
    push_neg at h
    have hp : ¬ p.1 = k := fun hc => h.1 hc.symm
    simp [updateAssoc, hp, ih (by simpa [keysA] using h.2)]

theorem keysA_nodup_updateAssoc {m : List (String × List String)} {k : String}
    (vs : List String) (h : (keysA m).Nodup) :
    (keysA (updateAssoc m k vs)).Nodup := by
  rw [keysA_updateAssoc]
  by_cases hk : k ∈ keysA m
  · simpa [hk] using h
  · simp only [hk, if_false]
    rw [List.nodup_append]
    refine ⟨h, List.nodup_singleton k, ?_⟩
    intro a ha hb
    rw [List.mem_singleton] at hb
    exact hk (hb ▸ ha)

theorem values_updateAssoc : ∀ (m : List (String × List String)) (k : String)
    (vs : List String) (q : String × List String), q ∈ updateAssoc m k vs →
    (∃ w, q.2 = sortedSet w) ∨ q ∈ m
  | [], k, vs, q, hq => by
    simp only [updateAssoc, List.mem_singleton] at hq
    exact Or.inl ⟨vs, by rw [hq]⟩
  | p :: ps, k, vs, q, hq => by
    by_cases h : p.1 = k
    · rw [updateAssoc, if_pos h, List.mem_cons] at hq
      rcases hq with hq | hq
      · exact Or.inl ⟨p.2 ++ vs, by rw [hq]⟩
      · exact Or.inr (List.mem_cons_of_mem _ hq)
    · rw [updateAssoc, if_neg h, List.mem_cons] at hq
      rcases hq with hq | hq
      · exact Or.inr (by rw [hq]; exact List.mem_cons_self _ _)
      · rcases values_updateAssoc ps k vs q hq with h' | h'
        · exact Or.inl h'
        · exact Or.inr (List.mem_cons_of_mem _ h')

/-! #### Flattening the nested dict-merging loops -/

/-- Concatenation of a list of lists (self-contained `join`). -/
def flattenL {α : Type} : List (List α) → List α
  | [] => []
  | l :: ls => l ++ flattenL ls

/-- Self-contained `concatMap`. -/
def concatMapL {α β : Type} (f : α → List β) : List α → List β
  | [] => []
  | x :: xs => f x ++ concatMapL f xs

/-- All values associated with key `k` among a flat list of key/value pairs,
in order. -/
def collectK (k : String) (ps : List (String × List String)) : List String :=
  concatMapL Prod.snd (ps.filter (fun p => p.1 == k))

theorem collectK_cons_self {p : String × List String} {k : String}
    (h : p.1 = k) (ps : List (String × List String)) :
    collectK k (p :: ps) = p.2 ++ collectK k ps := by
  simp only [collectK, List.filter_cons, h]
  simp [concatMapL]

theorem collectK_cons_other {p : String × List String} {k : String}
    (h : ¬ p.1 = k) (ps : List (String × List String)) :
    collectK k (p :: ps) = collectK k ps := by
  simp only [collectK, List.filter_cons]
  simp [h]

theorem collectK_eq_nil {k : String} :
    ∀ {ps : List (String × List String)}, k ∉ keysA ps → collectK k ps = []
  | [], _ => rfl
  | p :: ps, h => by
    rw [keysA_cons, List.mem_cons] at h
    push_neg at h
    rw [collectK_cons_other (fun hc => h.1 hc.symm)]
    exact collectK_eq_nil h.2

theorem mem_collectK {k : String} {x : String} :
    ∀ {ps : List (String × List String)},
      x ∈ collectK k ps ↔ ∃ p ∈ ps, p.1 = k ∧ x ∈ p.2
  | [] => by simp [collectK, concatMapL]
  | p :: ps => by
    by_cases h : p.1 = k
    · rw [collectK_cons_self h]
      simp only [List.mem_append, List.mem_cons]
      rw [mem_collectK]
      constructor
      · rintro (hx | ⟨q, hq, hqk, hxq⟩)
        · exact ⟨p, Or.inl rfl, h, hx⟩
        · exact ⟨q, Or.inr hq, hqk, hxq⟩
      · rintro ⟨q, hq | hq, hqk, hxq⟩
        · exact Or.inl (hq ▸ hxq)
        · exact Or.inr ⟨q, hq, hqk, hxq⟩
    · rw [collectK_cons_other h, mem_collectK]
      constructor
      · rintro ⟨q, hq, hqk, hxq⟩
        exact ⟨q, List.mem_cons_of_mem _ hq, hqk, hxq⟩
      · rintro ⟨q, hq, hqk, hxq⟩
        rw [List.mem_cons] at hq
        rcases hq with hq | hq
        · exact absurd (hq ▸ hqk) h
        · exact ⟨q, hq, hqk, hxq⟩

theorem foldl_nested_eq_foldl_flatten (ds : List (List (String × List String))) :
    ∀ acc, ds.foldl (fun m items => items.foldl stepDict m) acc =
      (flattenL ds).foldl stepDict acc := by
  induction ds with
  | nil => intro acc; rfl
  | cons l ls ih =>
    intro acc
    rw [List.foldl_cons, ih, flattenL, List.foldl_append]

/-- Value of any key after the dict-merging fold: untouched if the key never
occurs, otherwise the sorted set of the initial value plus every contributed
value. -/
theorem lookupA_foldl_stepDict (k : String) :
    ∀ (ps : List (String × List String)) (m : List (String × List String)),
      lookupA (ps.foldl stepDict m) k =
        if k ∈ keysA ps
        then some (sortedSet ((lookupA m k).getD [] ++ collectK k ps))
        else lookupA m k
  | [], m => by simp [keysA]
  | p :: ps, m => by
    rw [List.foldl_cons]
    by_cases hpk : p.1 = k
    · have hmem : k ∈ keysA (p :: ps) := by
        rw [keysA_cons, List.mem_cons]; exact Or.inl hpk.symm
      rw [if_pos hmem, collectK_cons_self hpk]
      rw [lookupA_foldl_stepDict k ps (stepDict m p)]
      have hself : lookupA (stepDict m p) k
          = some (sortedSet ((lookupA m k).getD [] ++ p.2)) := by
        rw [stepDict, ← hpk, lookupA_updateAssoc_self]
      by_cases hk : k ∈ keysA ps
      · rw [if_pos hk, hself]
        simp only [Option.getD_some]
        rw [sortedSet_sortedSet_append, List.append_assoc]
      · rw [if_neg hk, hself, collectK_eq_nil hk, List.append_nil]
    · have hkp : ¬ k = p.1 := fun hc => hpk hc.symm
      have hother : lookupA (stepDict m p) k = lookupA m k := by
        rw [stepDict]
        exact lookupA_updateAssoc_other m p.2 hkp
      rw [lookupA_foldl_stepDict k ps (stepDict m p), hother, collectK_cons_other hpk]
      by_cases hk : k ∈ keysA ps
      · rw [if_pos hk, if_pos (show k ∈ keysA (p :: ps) by
          rw [keysA_cons, List.mem_cons]; exact Or.inr hk)]
      · rw [if_neg hk, if_neg (show k ∉ keysA (p :: ps) by
          rw [keysA_cons, List.mem_cons]; push_neg; exact ⟨hkp, hk⟩)]

theorem foldl_stepDict_ne_nil :
    ∀ (ps : List (String × List String)) (m : List (String × List String)),
      m ≠ [] → ps.foldl stepDict m ≠ []
  | [], m, h => h
  | p :: ps, m, _ =>
    List.foldl_cons _ _ ▸
      foldl_stepDict_ne_nil ps (stepDict m p) (updateAssoc_ne_nil m p.1 p.2)

theorem foldl_stepDict_nil_iff (ps : List (String × List String)) :
    ps.foldl stepDict [] = [] ↔ ps = [] := by
  cases ps with
  | nil => simp
  | cons p ps =>
    constructor
    · intro h
      exact absurd h
        (List.foldl_cons _ _ ▸
          foldl_stepDict_ne_nil ps (stepDict [] p) (updateAssoc_ne_nil [] p.1 p.2))
    · intro h; cases h

theorem keysA_nodup_foldl_stepDict :
    ∀ (ps : List (String × List String)) {m : List (String × List String)},
      (keysA m).Nodup → (keysA (ps.foldl stepDict m)).Nodup
  | [], _, h => h
  | p :: ps, m, h =>
    List.foldl_cons _ _ ▸
      keysA_nodup_foldl_stepDict ps (keysA_nodup_updateAssoc p.2 h)

theorem values_foldl_stepDict :
    ∀ (ps : List (String × List String)) {m : List (String × List String)},
      (∀ q ∈ m, ∃ w, q.2 = sortedSet w) →
      ∀ q ∈ ps.foldl stepDict m, ∃ w, q.2 = sortedSet w
  | [], _, h => h
  | p :: ps, m, h => by
    rw [List.foldl_cons]
    refine values_foldl_stepDict ps ?_
    intro q hq
    rcases values_updateAssoc m p.1 p.2 q hq with h' | h'
    · exact h'
    · exact h q h'

theorem keysA_append {β : Type} (a b : List (String × β)) :
    keysA (a ++ b) = keysA a ++ keysA b := by
  simp [keysA]

/-- Replaying an already-merged map through the merging fold reproduces it:
fresh distinct keys are appended in order and canonical values are fixed
points of `sorted(set(...))`. -/
theorem foldl_stepDict_replay :
    ∀ (m acc : List (String × List String)),
      (∀ q ∈ m, q.1 ∉ keysA acc) → (keysA m).Nodup →
      (∀ q ∈ m, sortedSet q.2 = q.2) →
      m.foldl stepDict acc = acc ++ m
  | [], acc, _, _, _ => by simp
  | p :: ps, acc, hdisj, hnodup, hcanon => by
    rw [List.foldl_cons]
    have hstep : stepDict acc p = acc ++ [p] := by
      rw [stepDict, updateAssoc_of_not_mem_keys p.2 (hdisj p (List.mem_cons_self _ _)),
        hcanon p (List.mem_cons_self _ _)]
    rw [hstep]
    rw [keysA_cons] at hnodup
    rcases List.pairwise_cons.mp hnodup with ⟨hp1, hps⟩
    have := foldl_stepDict_replay ps (acc ++ [p])
      (by
        intro q hq
        rw [keysA_append]
        simp only [List.mem_append]
        push_neg
        refine ⟨hdisj q (List.mem_cons_of_mem _ hq), ?_⟩
        have hmem : q.1 ∈ keysA ps := List.mem_map_of_mem Prod.fst hq
        intro hc
        have hqp : q.1 = p.1 := by simpa [keysA] using hc
        exact hp1 q.1 hmem hqp.symm)
      hps
      (fun q hq => hcanon q (List.mem_cons_of_mem _ hq))
    rw [this, List.append_assoc]
    rfl

/-! #### Canonical (key-sorted) view of an extra-group mapping

Python compares dicts by key/value content, ignoring insertion order
(`{'a': 1, 'b': 2} == {'b': 2, 'a': 1}`), and the YAML serializer sorts
keys.  `sortByKey` is the corresponding order-insensitive canonical form of
our insertion-ordered association lists. -/

/-- Insert a pair into an assoc list that is sorted by key. -/
def insertByKey (p : String × List String) : List (String × List String) →
    List (String × List String)
  | [] => [p]
  | q :: qs => if p.1 < q.1 then p :: q :: qs else q :: insertByKey p qs

/-- Sort an assoc list by key (insertion sort). -/
def sortByKey (m : List (String × List String)) : List (String × List String) :=
  m.foldr insertByKey []

/-- Python value equality of dependency-list elements: plain strings compare
as themselves, extra-group dicts compare with keys put in canonical order. -/
def canonDep : Dep → Dep
  | .str s => .str s
  | .dict m => .dict (sortByKey m)

theorem insertByKey_perm (p : String × List String)
    (l : List (String × List String)) : (insertByKey p l).Perm (p :: l) := by
  induction l with
  | nil => exact List.Perm.refl _
  | cons q qs ih =>
    by_cases h : p.1 < q.1
    · rw [insertByKey, if_pos h]
    · rw [insertByKey, if_neg h]
      exact (List.Perm.cons q ih).trans (List.Perm.swap p q qs)

theorem sortByKey_perm (m : List (String × List String)) : (sortByKey m).Perm m := by
  induction m with
  | nil => exact List.Perm.refl _
  | cons p ps ih =>
    exact (insertByKey_perm p (sortByKey ps)).trans (List.Perm.cons p ih)

theorem mem_insertByKey {a p : String × List String}
    {l : List (String × List String)} :
    a ∈ insertByKey p l ↔ a = p ∨ a ∈ l :=
  ((insertByKey_perm p l).mem_iff).trans (by rw [List.mem_cons])

theorem insertByKey_keySorted (p : String × List String)
    {l : List (String × List String)}
    (h : l.Pairwise (fun a b => a.1 ≤ b.1)) :
    (insertByKey p l).Pairwise (fun a b => a.1 ≤ b.1) := by
  induction l with
  | nil => simp [insertByKey]
  | cons q qs ih =>
    rcases List.pairwise_cons.mp h with ⟨hq, hqs⟩
    by_cases hlt : p.1 < q.1
    · rw [insertByKey, if_pos hlt]
      refine List.pairwise_cons.mpr ⟨?_, h⟩
      intro b hb
      rw [List.mem_cons] at hb
      rcases hb with rfl | hb
      · exact le_of_lt hlt
      · exact le_trans (le_of_lt hlt) (hq _ hb)
    · rw [insertByKey, if_neg hlt]
      refine List.pairwise_cons.mpr ⟨?_, ih hqs⟩
      intro b hb
      rcases mem_insertByKey.mp hb with rfl | hb
      · exact not_lt.mp hlt
      · exact hq _ hb

theorem sortByKey_keySorted (m : List (String × List String)) :
    (sortByKey m).Pairwise (fun a b => a.1 ≤ b.1) := by
  induction m with
  | nil => simp [sortByKey]
  | cons p ps ih => exact insertByKey_keySorted p ih

theorem keysA_nodup_perm {β : Type} {m m' : List (String × β)}
    (h : m.Perm m') (hn : (keysA m).Nodup) : (keysA m').Nodup :=
  (h.map Prod.fst).nodup_iff.mp hn

theorem sortByKey_keyStrictSorted {m : List (String × List String)}
    (hn : (keysA m).Nodup) :
    (sortByKey m).Pairwise (fun a b => a.1 < b.1) := by
  have hle := sortByKey_keySorted m
  have hnodup : (keysA (sortByKey m)).Nodup :=
    keysA_nodup_perm (sortByKey_perm m).symm hn
  have hne : (sortByKey m).Pairwise (fun a b => a.1 ≠ b.1) := by
    have := (List.pairwise_map (f := Prod.fst)).mp hnodup
    exact this
  exact (hle.and hne).imp (fun h => lt_of_le_of_ne h.1 h.2)

theorem lookupA_eq_some_iff_mem {β : Type} :
    ∀ {m : List (String × β)}, (keysA m).Nodup → ∀ {k : String} {v : β},
      (lookupA m k = some v ↔ (k, v) ∈ m)
  | [], _, k, v => by simp [lookupA]
  | p :: ps, hn, k, v => by
    rw [keysA_cons] at hn
    rcases List.pairwise_cons.mp hn with ⟨hp, hps⟩
    rw [lookupA, List.mem_cons]
    by_cases h : p.1 = k
    · rw [if_pos h]
      constructor
      · intro hv
        have hv2 : v = p.2 := (Option.some.inj hv).symm
        left
        rw [hv2, ← h]
      · rintro (hv | hv)
        · rw [← hv]
        · exact absurd h (hp k (List.mem_map_of_mem Prod.fst hv))
    · rw [if_neg h, lookupA_eq_some_iff_mem hps]
      constructor
      · exact Or.inr
      · rintro (hv | hv)
        · exact absurd (congrArg Prod.fst hv).symm h
        · exact hv

theorem lookupA_perm {β : Type} {m m' : List (String × β)}
    (h : m.Perm m') (hn : (keysA m).Nodup) (k : String) :
    lookupA m k = lookupA m' k := by
  have hn' : (keysA m').Nodup := keysA_nodup_perm h hn
  cases hv : lookupA m k with
  | none =>
    have : k ∉ keysA m := (lookupA_eq_none_iff m k).mp hv
    have : k ∉ keysA m' := fun hc => this ((h.map Prod.fst).mem_iff.mpr hc)
    exact ((lookupA_eq_none_iff m' k).mpr this).symm
  | some v =>
    have : (k, v) ∈ m := (lookupA_eq_some_iff_mem hn).mp hv
    exact ((lookupA_eq_some_iff_mem hn').mpr (h.mem_iff.mp this)).symm

/-- Two key-strictly-sorted assoc lists with the same lookups are equal. -/
theorem eq_of_keySorted_of_lookupA_eq :
    ∀ {m m' : List (String × List String)},
      m.Pairwise (fun a b => a.1 < b.1) → m'.Pairwise (fun a b => a.1 < b.1) →
      (∀ k, lookupA m k = lookupA m' k) → m = m'
  | [], [], _, _, _ => rfl
  | [], b :: bs, _, _, hm => by
    have := hm b.1
    rw [lookupA, lookupA, if_pos rfl] at this
    cases this
  | a :: as, [], _, _, hm => by
    have := hm a.1
    rw [lookupA, lookupA, if_pos rfl] at this
    cases this
  | a :: as, b :: bs, hl, hl', hm => by
    rcases List.pairwise_cons.mp hl with ⟨ha, has⟩
    rcases List.pairwise_cons.mp hl' with ⟨hb, hbs⟩
    have hkey : a.1 = b.1 := by
      by_contra hne
      have h1 := hm a.1
      rw [lookupA, if_pos rfl, lookupA, if_neg (fun hc => hne hc.symm)] at h1
      have h2 := hm b.1
      rw [lookupA, if_neg (fun hc => hne hc), lookupA, if_pos rfl] at h2
      have hba : b.1 < a.1 := by
        rcases List.mem_map.mp
          (mem_keys_of_lookupA_eq_some (m := bs) h1.symm) with ⟨q, hq, hq1⟩
        exact hq1 ▸ hb q hq
      have hab : a.1 < b.1 := by
        rcases List.mem_map.mp
          (mem_keys_of_lookupA_eq_some (m := as) h2) with ⟨q, hq, hq1⟩
        exact hq1 ▸ ha q hq
      exact absurd (lt_trans hab hba) (lt_irrefl _)
    have hval : a.2 = b.2 := by
      have h1 := hm a.1
      rw [lookupA, if_pos rfl, lookupA, if_pos hkey.symm] at h1
      exact Option.some.inj h1
    have hpair : a = b := Prod.ext hkey hval
    subst hpair
    have htails : ∀ k, lookupA as k = lookupA bs k := by
      intro k
      by_cases hk : a.1 = k
      · subst hk
        have h1 : lookupA as a.1 = none := by
          rw [lookupA_eq_none_iff]
          intro hc
          rcases List.mem_map.mp hc with ⟨q, hq, hq1⟩
          exact absurd (hq1 ▸ ha q hq) (lt_irrefl _)
        have h2 : lookupA bs a.1 = none := by
          rw [lookupA_eq_none_iff]
          intro hc
          rcases List.mem_map.mp hc with ⟨q, hq, hq1⟩
          exact absurd (hq1 ▸ hb q hq) (lt_irrefl _)
        rw [h1, h2]
      · have := hm k
        rwa [lookupA, if_neg hk, lookupA, if_neg hk] at this
    rw [eq_of_keySorted_of_lookupA_eq has hbs htails]

/-- Canonical forms agree whenever the two maps have no duplicate keys and
identical lookups — exactly Python dict equality. -/
theorem sortByKey_eq_of_lookupA_eq {m m' : List (String × List String)}
    (hn : (keysA m).Nodup) (hn' : (keysA m').Nodup)
    (h : ∀ k, lookupA m k = lookupA m' k) : sortByKey m = sortByKey m' := by
  refine eq_of_keySorted_of_lookupA_eq (sortByKey_keyStrictSorted hn)
    (sortByKey_keyStrictSorted hn') ?_
  intro k
  rw [lookupA_perm (sortByKey_perm m) (keysA_nodup_perm (sortByKey_perm m).symm hn) k,
    lookupA_perm (sortByKey_perm m') (keysA_nodup_perm (sortByKey_perm m').symm hn') k]
  exact h k

/-! #### Permutation infrastructure for the dict inputs -/

theorem flattenL_perm {α : Type} {ds ds' : List (List α)} (h : ds.Perm ds') :
    (flattenL ds).Perm (flattenL ds') := by
  induction h with
  | nil => exact List.Perm.refl _
  | cons x _ ih => exact List.Perm.append_left x ih
  | swap x y l =>
    rw [flattenL, flattenL, flattenL, flattenL, ← List.append_assoc, ← List.append_assoc]
    exact List.Perm.append_right (flattenL l) (List.perm_append_comm)
  | trans _ _ ih₁ ih₂ => exact ih₁.trans ih₂

theorem mem_flattenL {α : Type} {x : α} :
    ∀ {ds : List (List α)}, x ∈ flattenL ds ↔ ∃ d ∈ ds, x ∈ d
  | [] => by simp [flattenL]
  | d :: ds => by
    rw [flattenL, List.mem_append, mem_flattenL]
    constructor
    · rintro (hx | ⟨e, he, hx⟩)
      · exact ⟨d, List.mem_cons_self _ _, hx⟩
      · exact ⟨e, List.mem_cons_of_mem _ he, hx⟩
    · rintro ⟨e, he, hx⟩
      rw [List.mem_cons] at he
      rcases he with rfl | he
      · exact Or.inl hx
      · exact Or.inr ⟨e, he, hx⟩

theorem concatMapL_eq_flattenL_map {α β : Type} (f : α → List β) :
    ∀ l : List α, concatMapL f l = flattenL (l.map f)
  | [] => rfl
  | x :: xs => by
    rw [concatMapL, List.map_cons, flattenL, concatMapL_eq_flattenL_map f xs]

theorem collectK_perm {k : String} {ps ps' : List (String × List String)}
    (h : ps.Perm ps') : (collectK k ps).Perm (collectK k ps') := by
  rw [collectK, collectK, concatMapL_eq_flattenL_map, concatMapL_eq_flattenL_map]
  exact flattenL_perm ((h.filter _).map _)

/-- `buildDictDeps` is the flat fold of `stepDict` over all key/value pairs. -/
theorem buildDictDeps_eq (ds : List (List (String × List String))) :
    buildDictDeps ds = (flattenL ds).foldl stepDict [] :=
  foldl_nested_eq_foldl_flatten ds []

theorem buildDictDeps_keysA_nodup (ds : List (List (String × List String))) :
    (keysA (buildDictDeps ds)).Nodup := by
  rw [buildDictDeps_eq]
  exact keysA_nodup_foldl_stepDict (flattenL ds) (by simp [keysA])

theorem buildDictDeps_values (ds : List (List (String × List String))) :
    ∀ q ∈ buildDictDeps ds, ∃ w, q.2 = sortedSet w := by
  rw [buildDictDeps_eq]
  exact values_foldl_stepDict (flattenL ds) (by intro q hq; cases hq)

theorem buildDictDeps_eq_nil_iff (ds : List (List (String × List String))) :
    buildDictDeps ds = [] ↔ flattenL ds = [] := by
  rw [buildDictDeps_eq]
  exact foldl_stepDict_nil_iff (flattenL ds)

theorem lookupA_buildDictDeps (ds : List (List (String × List String))) (k : String) :
    lookupA (buildDictDeps ds) k =
      if k ∈ keysA (flattenL ds)
      then some (sortedSet (collectK k (flattenL ds)))
      else none := by
  rw [buildDictDeps_eq, lookupA_foldl_stepDict k (flattenL ds) []]
  rw [show lookupA ([] : List (String × List String)) k = none from rfl]
  rfl

/-- The merged dicts of two permuted inputs have identical lookups. -/
theorem lookupA_buildDictDeps_perm {ds ds' : List (List (String × List String))}
    (h : ds.Perm ds') (k : String) :
    lookupA (buildDictDeps ds) k = lookupA (buildDictDeps ds') k := by
  have hp : (flattenL ds).Perm (flattenL ds') := flattenL_perm h
  rw [lookupA_buildDictDeps, lookupA_buildDictDeps]
  have hmem : (k ∈ keysA (flattenL ds)) ↔ (k ∈ keysA (flattenL ds')) :=
    (hp.map Prod.fst).mem_iff
  by_cases hk : k ∈ keysA (flattenL ds)
  · rw [if_pos hk, if_pos (hmem.mp hk), sortedSet_perm (collectK_perm hp)]
  · rw [if_neg hk, if_neg (fun hc => hk (hmem.mpr hc))]

/-! #### Structural lemmas about `dedupe` -/

theorem strDeps_append (a b : List Dep) : strDeps (a ++ b) = strDeps a ++ strDeps b := by
  simp [strDeps]

theorem dictDeps_append (a b : List Dep) :
    dictDeps (a ++ b) = dictDeps a ++ dictDeps b := by
  simp [dictDeps]

theorem strDeps_map_str (l : List String) : strDeps (l.map Dep.str) = l := by
  induction l with
  | nil => rfl
  | cons x xs ih => simp [strDeps, List.filterMap_cons] at *; exact ih

theorem dictDeps_map_str (l : List String) : dictDeps (l.map Dep.str) = [] := by
  induction l with
  | nil => rfl
  | cons x xs ih => simp [dictDeps, List.filterMap_cons] at *

theorem strDeps_perm {l l' : List Dep} (h : l.Perm l') : (strDeps l).Perm (strDeps l') :=
  h.filterMap _

theorem dictDeps_perm {l l' : List Dep} (h : l.Perm l') :
    (dictDeps l).Perm (dictDeps l') :=
  h.filterMap _

theorem dedupe_eq (l : List Dep) :
    dedupe l = (sortedSet (strDeps l)).map Dep.str ++
      (if buildDictDeps (dictDeps l) = [] then []
       else [Dep.dict (buildDictDeps (dictDeps l))]) := by
  rw [dedupe]
  by_cases h : buildDictDeps (dictDeps l) = [] <;> simp [h]

theorem mem_dict_dedupe {l : List Dep} {d : List (String × List String)}
    (h : Dep.dict d ∈ dedupe l) : d = buildDictDeps (dictDeps l) := by
  rw [dedupe_eq, List.mem_append] at h
  rcases h with h | h
  · rcases List.mem_map.mp h with ⟨s, _, hs⟩
    cases hs
  · by_cases hd : buildDictDeps (dictDeps l) = []
    · rw [if_pos hd] at h
      cases h
    · rw [if_neg hd, List.mem_singleton] at h
      exact Dep.dict.inj h

theorem dedupe_map_canonDep_perm {l l' : List Dep} (h : l.Perm l') :
    (dedupe l).map canonDep = (dedupe l').map canonDep := by
  have hs : sortedSet (strDeps l) = sortedSet (strDeps l') :=
    sortedSet_perm (strDeps_perm h)
  have hd : (dictDeps l).Perm (dictDeps l') := dictDeps_perm h
  have hstr : ∀ S : List String, (S.map Dep.str).map canonDep = S.map Dep.str := by
    intro S
    rw [List.map_map]
    rfl
  have hnil : buildDictDeps (dictDeps l) = [] ↔ buildDictDeps (dictDeps l') = [] := by
    rw [buildDictDeps_eq_nil_iff, buildDictDeps_eq_nil_iff,
      ← List.length_eq_zero, ← List.length_eq_zero, (flattenL_perm hd).length_eq]
  rw [dedupe_eq, dedupe_eq]
  by_cases hb : buildDictDeps (dictDeps l) = []
  · rw [if_pos hb, if_pos (hnil.mp hb), List.append_nil, List.append_nil, hstr, hstr, hs]
  · rw [if_neg hb, if_neg (fun hc => hb (hnil.mpr hc)), List.map_append,
      List.map_append, hstr, hstr, hs]
    have hsort : sortByKey (buildDictDeps (dictDeps l))
        = sortByKey (buildDictDeps (dictDeps l')) :=
      sortByKey_eq_of_lookupA_eq (buildDictDeps_keysA_nodup _)
        (buildDictDeps_keysA_nodup _) (lookupA_buildDictDeps_perm hd)
    rw [show ([Dep.dict (buildDictDeps (dictDeps l))].map canonDep)
        = [Dep.dict (sortByKey (buildDictDeps (dictDeps l)))] from rfl,
      show ([Dep.dict (buildDictDeps (dictDeps l'))].map canonDep)
        = [Dep.dict (sortByKey (buildDictDeps (dictDeps l')))] from rfl, hsort]

theorem dedupe_idem (l : List Dep) : dedupe (dedupe l) = dedupe l := by
  have hS : sortedSet (sortedSet (strDeps l)) = sortedSet (strDeps l) :=
    sortedSet_idem _
  by_cases hD : buildDictDeps (dictDeps l) = []
  · rw [dedupe_eq l, if_pos hD, List.append_nil]
    rw [dedupe_eq, strDeps_map_str, dictDeps_map_str, hS]
    rw [show buildDictDeps [] = [] from rfl]
    simp
  · rw [dedupe_eq l, if_neg hD]
    rw [dedupe_eq, strDeps_append, dictDeps_append, strDeps_map_str, dictDeps_map_str]
    rw [show strDeps [Dep.dict (buildDictDeps (dictDeps l))] = [] from rfl,
      show dictDeps [Dep.dict (buildDictDeps (dictDeps l))]
        = [buildDictDeps (dictDeps l)] from rfl]
    rw [List.append_nil, List.nil_append, hS]
    have hreplay : buildDictDeps [buildDictDeps (dictDeps l)]
        = buildDictDeps (dictDeps l) := by
      rw [buildDictDeps_eq]
      rw [show flattenL [buildDictDeps (dictDeps l)]
          = buildDictDeps (dictDeps l) from by rw [flattenL, flattenL, List.append_nil]]
      rw [foldl_stepDict_replay (buildDictDeps (dictDeps l)) []
        (by intro q _ hq; cases hq)
        (by
          have := buildDictDeps_keysA_nodup (dictDeps l)
          simpa [keysA] using this)
        (by
          intro q hq
          rcases buildDictDeps_values (dictDeps l) q hq with ⟨w, hw⟩
          rw [hw, sortedSet_idem])]
      rfl
    rw [hreplay, if_neg hD]

theorem dedupe_dict_entry {l : List Dep} {d : List (String × List String)}
    {k : String} {vs : List String} (hmem : Dep.dict d ∈ dedupe l)
    (hlk : lookupA d k = some vs) :
    vs.Pairwise (· < ·) ∧ vs.Nodup ∧
      (∀ x, x ∈ vs ↔ ∃ m ∈ dictDeps l, ∃ p ∈ m, p.1 = k ∧ x ∈ p.2) := by
  have hd : d = buildDictDeps (dictDeps l) := mem_dict_dedupe hmem
  subst hd
  rw [lookupA_buildDictDeps] at hlk
  by_cases hk : k ∈ keysA (flattenL (dictDeps l))
  · rw [if_pos hk] at hlk
    have hvs : vs = sortedSet (collectK k (flattenL (dictDeps l))) :=
      (Option.some.inj hlk).symm
    subst hvs
    refine ⟨sortedSet_sorted _, sortedSet_nodup _, ?_⟩
    intro x
    rw [mem_sortedSet, mem_collectK]
    constructor
    · rintro ⟨p, hp, hpk, hxp⟩
      rcases mem_flattenL.mp hp with ⟨m, hm, hpm⟩
      exact ⟨m, hm, p, hpm, hpk, hxp⟩
    · rintro ⟨m, hm, p, hpm, hpk, hxp⟩
      exact ⟨p, mem_flattenL.mpr ⟨m, hm, hpm⟩, hpk, hxp⟩
  · rw [if_neg hk] at hlk
    cases hlk

/-- **C1.** For every input dependency list, the output of `dedupe` is
determined solely by the multiset of inputs: any permutation of the same
input multiset dedupes to the identical output, where "identical" is Python
value equality (Python dicts compare equal irrespective of insertion order,
which `canonDep` canonicalizes by sorting extra-group keys); `dedupe`
applied to an already-deduped list returns it unchanged (idempotence, here
stated as exact structural idempotence `dedupe (dedupe l) = dedupe l`); and
repeated occurrences of the same extra-group name are merged by set union of
their package lists, each merged list duplicate-free and lexicographically
sorted. -/
theorem claim_C1_dedupe_deterministic_idempotent_union :
    (∀ l l' : List Dep, l.Perm l' →
      (dedupe l).map canonDep = (dedupe l').map canonDep) ∧
    (∀ l : List Dep, dedupe (dedupe l) = dedupe l) ∧
    (∀ (l : List Dep) (d : List (String × List String)) (k : String)
        (vs : List String), Dep.dict d ∈ dedupe l → lookupA d k = some vs →
      vs.Pairwise (· < ·) ∧ vs.Nodup ∧
        (∀ x, x ∈ vs ↔ ∃ m ∈ dictDeps l, ∃ p ∈ m, p.1 = k ∧ x ∈ p.2)) :=
  ⟨fun _ _ h => dedupe_map_canonDep_perm h, dedupe_idem,
    fun _ _ _ _ hmem hlk => dedupe_dict_entry hmem hlk⟩

/-- Witness for C1: a concrete permuted pair of dependency lists, and a
concrete merged extra group, with every hypothesis discharged by `decide`. -/
theorem claim_C1_dedupe_witness :
    ((dedupe [Dep.str "a", Dep.dict [("g", ["x"])], Dep.str "a",
        Dep.dict [("g", ["x"]), ("h", ["x"])]]).map canonDep =
      (dedupe [Dep.dict [("g", ["x"]), ("h", ["x"])], Dep.str "a",
        Dep.dict [("g", ["x"])], Dep.str "a"]).map canonDep) ∧
    (["x"] : List String).Nodup :=
  ⟨claim_C1_dedupe_deterministic_idempotent_union.1 _ _ (by decide),
    (claim_C1_dedupe_deterministic_idempotent_union.2.2
      [Dep.str "a", Dep.dict [("g", ["x"])], Dep.str "a",
        Dep.dict [("g", ["x"]), ("h", ["x"])]]
      [("g", ["x"]), ("h", ["x"])] "g" ["x"] (by decide) (by decide)).2.1⟩

/-! ### The specific-entry matcher (`should_use_specific_entry`, lines 286-317) -/

/-- Embedding of `should_use_specific_entry`: every key/value pair of the
sub-rule condition must be present with an equal value in the combination
(`matrix_combo.get(specific_key) == specific_value` for every item). -/
def should_use_specific_entry (matrix_combo specific_entry_matrix :
    List (String × String)) : Bool :=
  specific_entry_matrix.all fun kv => lookupA matrix_combo kv.1 == some kv.2

/-- **C3.** `should_use_specific_entry combo {}` is always true, and
`should_use_specific_entry combo cond` is true iff every key of `cond` is
present in `combo` with an equal value (keys of `combo` absent from `cond`
are ignored as wildcards — the characterization only constrains the keys of
`cond`). -/
theorem claim_C3_matcher :
    ∀ combo cond : List (String × String),
      should_use_specific_entry combo [] = true ∧
      (should_use_specific_entry combo cond = true ↔
        ∀ p ∈ cond, lookupA combo p.1 = some p.2) := by
  intro combo cond
  refine ⟨rfl, ?_⟩
  rw [should_use_specific_entry, List.all_eq_true]
  constructor
  · intro h p hp
    exact eq_of_beq (h p hp)
  · intro h p hp
    exact beq_iff_eq.mpr (h p hp)

/-- Witness for C3: matching decided on a concrete combination/condition. -/
theorem claim_C3_matcher_witness :
    lookupA [("cuda", "11"), ("arch", "x86")] "cuda" = some "11" :=
  (claim_C3_matcher [("cuda", "11"), ("arch", "x86")] [("cuda", "11")]).2.mp
    (by decide) ("cuda", "11") (by decide)

/-! ### The matrix expander (`grid`, lines 69-90) -/

/-- One axis of the Cartesian product: prepend `(k, v)` for each value `v`
to every tail combination, first value outermost — the iteration order of
`itertools.product`. -/
def gridCons (k : String) : List String → List (List (String × String)) →
    List (List (String × String))
  | [], _ => []
  | v :: vs, tails => tails.map (fun c => (k, v) :: c) ++ gridCons k vs tails

/-- Embedding of `grid`: the Cartesian product of an ordered axis mapping,
yielding one insertion-ordered combination dict per element of the product
(`dict(zip(gridspec.keys(), values))` for `values` in
`itertools.product(*gridspec.values())`). -/
def grid : List (String × List String) → List (List (String × String))
  | [] => [[]]
  | (k, vs) :: rest => gridCons k vs (grid rest)

theorem gridCons_length (k : String) :
    ∀ (vs : List String) (tails : List (List (String × String))),
      (gridCons k vs tails).length = vs.length * tails.length
  | [], _ => by simp [gridCons]
  | v :: vs, tails => by
    rw [gridCons, List.length_append, List.length_map, gridCons_length k vs tails,
      List.length_cons, Nat.succ_mul, Nat.add_comm]

theorem mem_gridCons {k : String} {x : List (String × String)} :
    ∀ {vs : List String} {tails : List (List (String × String))},
      x ∈ gridCons k vs tails ↔ ∃ v ∈ vs, ∃ c ∈ tails, x = (k, v) :: c
  | [], _ => by simp [gridCons]
  | v :: vs, tails => by
    rw [gridCons, List.mem_append, mem_gridCons]
    constructor
    · rintro (hx | ⟨v', hv', c, hc, hx⟩)
      · rcases List.mem_map.mp hx with ⟨c, hc, hx⟩
        exact ⟨v, List.mem_cons_self _ _, c, hc, hx.symm⟩
      · exact ⟨v', List.mem_cons_of_mem _ hv', c, hc, hx⟩
    · rintro ⟨v', hv', c, hc, hx⟩
      rw [List.mem_cons] at hv'
      rcases hv' with rfl | hv'
      · exact Or.inl (List.mem_map.mpr ⟨c, hc, hx.symm⟩)
      · exact Or.inr ⟨v', hv', c, hc, hx⟩

theorem gridCons_nodup (k : String) :
    ∀ {vs : List String} {tails : List (List (String × String))},
      vs.Nodup → tails.Nodup → (gridCons k vs tails).Nodup
  | [], _, _, _ => by simp [gridCons]
  | v :: vs, tails, hvs, htails => by
    rcases List.pairwise_cons.mp hvs with ⟨hv, hvs'⟩
    rw [gridCons, List.nodup_append]
    refine ⟨?_, gridCons_nodup k hvs' htails, ?_⟩
    · exact htails.map (fun c₁ c₂ h => (List.cons.injEq _ _ _ _).mp h |>.2)
    · intro a ha hb
      rcases List.mem_map.mp ha with ⟨c, _, hac⟩
      rcases mem_gridCons.mp hb with ⟨v', hv', c', _, hac'⟩
      rw [← hac] at hac'
      have : v = v' := ((Prod.mk.injEq _ _ _ _).mp
        ((List.cons.injEq _ _ _ _).mp hac').1).2
      exact hv v' hv' this

/-- **C4 (amended).** For every axis mapping with `k` axes whose value lists
have sizes `n1 ... nk`, `grid` yields exactly `n1 * ... * nk` combinations;
the empty mapping yields exactly one combination, the empty mapping; and the
combinations are pairwise distinct provided every axis value list is free of
duplicates (the amendment: with a duplicated axis value the code yields the
same combination several times, see the counterexample). -/
theorem claim_C4_grid :
    (∀ gs : List (String × List String),
      (grid gs).length = (gs.map fun ax => ax.2.length).prod) ∧
    grid [] = [[]] ∧
    (∀ gs : List (String × List String),
      (∀ ax ∈ gs, ax.2.Nodup) → (grid gs).Nodup) := by
  refine ⟨?_, rfl, ?_⟩
  · intro gs
    induction gs with
    | nil => simp [grid]
    | cons ax rest ih =>
      cases ax with
      | mk k vs => rw [grid, gridCons_length, ih, List.map_cons, List.prod_cons]
  · intro gs
    induction gs with
    | nil =>
      intro _
      simp [grid]
    | cons ax rest ih =>
      intro h
      cases ax with
      | mk k vs =>
        rw [grid]
        exact gridCons_nodup k (h (k, vs) (List.mem_cons_self _ _))
          (ih (fun ax hax => h ax (List.mem_cons_of_mem _ hax)))

/-- Counterexample for C4 as stated: with a duplicated axis value the
combinations yielded by `grid` are not pairwise distinct (the claim asserts
distinctness for *every* axis mapping). -/
theorem claim_C4_grid_counterexample :
    grid [("a", ["x", "x"])] = [[("a", "x")], [("a", "x")]] ∧
      ¬ (grid [("a", ["x", "x"])]).Nodup := by
  constructor
  · rfl
  · decide

/-- Witness for C4: a concrete duplicate-free axis mapping. -/
theorem claim_C4_grid_witness :
    (grid [("cuda", ["11", "12"])]).Nodup ∧
      (grid [("cuda", ["11", "12"])]).length =
        ([("cuda", ["11", "12"])].map fun ax => ax.2.length).prod :=
  ⟨claim_C4_grid.2.2 [("cuda", ["11", "12"])] (by decide),
    claim_C4_grid.1 [("cuda", ["11", "12"])]⟩

/-! ### CUDA package-name suffixing (`name_with_cuda_suffix`, lines 320-342) -/

theorem isPrefixOf_append_self (l t : List Char) : l.isPrefixOf (l ++ t) = true := by
  induction l with
  | nil => simp [List.isPrefixOf]
  | cons a as ih => simp [List.isPrefixOf, ih]

/-- Does `name` end with the suffix token immediately followed by exactly two
decimal digits?  This is when `re.search("(" + cuda_suffix + "[0-9]{2})$", name)`
matches (the suffix token is interpolated verbatim into the pattern; we model
it as matched literally, which is exact for the default `-cu` and for any
suffix free of regex metacharacters). -/
def endsWithCudaSuffixL (cuda_suffix name : List Char) : Bool :=
  match name.reverse with
  | d2 :: d1 :: rest => d1.isDigit && d2.isDigit && cuda_suffix.reverse.isPrefixOf rest
  | _ => false

/-- The strip step of `name_with_cuda_suffix`
(`name[0 : suff.span(0)[0] if suff else len(name)]`): remove a trailing
`cuda_suffix` + two digits when the pattern matches, else leave the name
unchanged.  The `$`-anchored fixed-length pattern makes the match position
unique, so `re.search` is exactly this ends-with test. -/
def stripCudaSuffix (cuda_suffix name : List Char) : List Char :=
  match name.reverse with
  | d2 :: d1 :: rest =>
    if d1.isDigit && d2.isDigit && cuda_suffix.reverse.isPrefixOf rest
    then (rest.drop cuda_suffix.length).reverse
    else name
  | _ => name

/-- Embedding of `name_with_cuda_suffix`: strip an existing suffix, then, if
a CUDA version is given, append the suffix token followed by the major
component (`cuda_version.split(".")[0]`) of the version. -/
def name_with_cuda_suffix (name : String) (cuda_version : Option String)
    (cuda_suffix : String := "-cu") : String :=
  let stripped := String.mk (stripCudaSuffix cuda_suffix.data name.data)
  match cuda_version with
  | none => stripped
  | some v =>
    stripped ++ cuda_suffix ++ String.mk (v.data.takeWhile (fun c => c ≠ '.'))

theorem stripCudaSuffix_append (suf p : List Char) {d1 d2 : Char}
    (h1 : d1.isDigit = true) (h2 : d2.isDigit = true) :
    stripCudaSuffix suf (p ++ suf ++ [d1, d2]) = p := by
  have hrev : (p ++ suf ++ [d1, d2]).reverse
      = d2 :: d1 :: (suf.reverse ++ p.reverse) := by
    simp
  simp only [stripCudaSuffix, hrev, h1, h2, isPrefixOf_append_self,
    Bool.and_self, Bool.true_and, if_true]
  rw [show suf.length = suf.reverse.length from (List.length_reverse suf).symm,
    List.drop_left, List.reverse_reverse]

theorem stripCudaSuffix_of_no_suffix {suf name : List Char}
    (h : endsWithCudaSuffixL suf name = false) :
    stripCudaSuffix suf name = name := by
  cases hrev : name.reverse with
  | nil => simp [stripCudaSuffix, hrev]
  | cons d2 tl =>
    cases tl with
    | nil => simp [stripCudaSuffix, hrev]
    | cons d1 rest =>
      simp only [endsWithCudaSuffixL, hrev] at h
      simp only [stripCudaSuffix, hrev]
      simp [h]

theorem name_with_cuda_suffix_none_append (p suf : String) {d1 d2 : Char}
    (h1 : d1.isDigit = true) (h2 : d2.isDigit = true) :
    name_with_cuda_suffix (p ++ suf ++ String.mk [d1, d2]) none suf = p := by
  show String.mk (stripCudaSuffix suf.data (p ++ suf ++ String.mk [d1, d2]).data) = p
  rw [show (p ++ suf ++ String.mk [d1, d2]).data = p.data ++ suf.data ++ [d1, d2] by
    rw [String.data_append, String.data_append]]
  rw [stripCudaSuffix_append suf.data p.data h1 h2]

theorem name_with_cuda_suffix_some (name v suf : String) :
    name_with_cuda_suffix name (some v) suf =
      name_with_cuda_suffix name none suf ++ suf ++
        String.mk (v.data.takeWhile (fun c => c ≠ '.')) := rfl

/-- **C7 (amended).** `name_with_cuda_suffix` first removes an existing
occurrence of the suffix token followed by *exactly two* digits at the end of
the name (no removal otherwise), then, if a version is given, appends the
suffix token followed by the major component (the text before the first ".")
of the version; with no version the result is just the stripped name.
Re-applying it with the same version leaves the name unchanged *provided the
major component consists of exactly two digit characters* (the amendment: for
a one- or three-digit major such as "9" the second application fails to strip
and duplicates the suffix, see the counterexample). -/
theorem claim_C7_name_with_cuda_suffix :
    (∀ (p suf : String) (d1 d2 : Char), d1.isDigit = true → d2.isDigit = true →
      name_with_cuda_suffix (p ++ suf ++ String.mk [d1, d2]) none suf = p) ∧
    (∀ (name suf : String), endsWithCudaSuffixL suf.data name.data = false →
      name_with_cuda_suffix name none suf = name) ∧
    (∀ (name v suf : String),
      name_with_cuda_suffix name (some v) suf =
        name_with_cuda_suffix name none suf ++ suf ++
          String.mk (v.data.takeWhile (fun c => c ≠ '.'))) ∧
    (∀ (name v suf : String) (d1 d2 : Char),
      v.data.takeWhile (fun c => c ≠ '.') = [d1, d2] →
      d1.isDigit = true → d2.isDigit = true →
      name_with_cuda_suffix (name_with_cuda_suffix name (some v) suf)
        (some v) suf = name_with_cuda_suffix name (some v) suf) := by
  refine ⟨fun p suf d1 d2 h1 h2 => name_with_cuda_suffix_none_append p suf h1 h2,
    ?_, fun name v suf => name_with_cuda_suffix_some name v suf, ?_⟩
  · intro name suf h
    show String.mk (stripCudaSuffix suf.data name.data) = name
    rw [stripCudaSuffix_of_no_suffix h]
  · intro name v suf d1 d2 hmaj h1 h2
    rw [show name_with_cuda_suffix name (some v) suf
        = name_with_cuda_suffix name none suf ++ suf ++ String.mk [d1, d2] by
      rw [name_with_cuda_suffix_some, hmaj]]
    rw [name_with_cuda_suffix_some,
      name_with_cuda_suffix_none_append _ _ h1 h2, hmaj]

/-- Counterexample for C7 as stated: with version "9.2" (one-digit major) the
appended suffix `-cu9` is not recognized by the two-digit strip pattern, so
re-applying the function with the same version duplicates the suffix instead
of leaving the name unchanged. -/
theorem claim_C7_counterexample :
    name_with_cuda_suffix "pkg" (some "9.2") "-cu" = "pkg-cu9" ∧
    name_with_cuda_suffix (name_with_cuda_suffix "pkg" (some "9.2") "-cu")
      (some "9.2") "-cu" = "pkg-cu9-cu9" ∧
    ("pkg-cu9-cu9" : String) ≠ "pkg-cu9" :=
  ⟨by decide, by decide, by decide⟩

/-- Witness for C7: a two-digit major version ("11.0") is a fixed point of
re-application. -/
theorem claim_C7_witness :
    name_with_cuda_suffix (name_with_cuda_suffix "pkg" (some "11.0") "-cu")
      (some "11.0") "-cu" = name_with_cuda_suffix "pkg" (some "11.0") "-cu" :=
  claim_C7_name_with_cuda_suffix.2.2.2 "pkg" "11.0" "-cu" '1' '1'
    (by decide) (by decide) (by decide)

/-! ### Output-type identifiers -/

namespace OutputTypes

/-- Modelled from the spec: `constants.OutputTypes` lives in `constants.py`,
which is not under `src/`.  The spec names the sentinel "none" (§4.7, §8
scenario C), the "requirements" format (whose file prefix is `requirements`,
§4.5 / source line 239) and the pyproject format (whose fixed file name is
`pyproject.toml`, so its string value is "pyproject", source line 246); the
structured conda environment format is the remaining member. -/
def NONE : String := "none"

/-- Modelled from the spec (see `OutputTypes.NONE`). -/
def CONDA : String := "conda"

/-- Modelled from the spec (see `OutputTypes.NONE`). -/
def REQUIREMENTS : String := "requirements"

/-- Modelled from the spec (see `OutputTypes.NONE`). -/
def PYPROJECT : String := "pyproject"

end OutputTypes

/-! ### Output file naming (`get_filename`, lines 204-250) -/

/-- Python `s.replace(".", "")`. -/
def removeDots (s : String) : String :=
  String.mk (s.data.filter (fun c => c ≠ '.'))

/-- The matrix-combination suffix
`"_".join([f"{k}-{v}" for k, v in matrix_combo.items()])`. -/
def comboSuffix (matrix_combo : List (String × String)) : String :=
  String.intercalate "_" (matrix_combo.map fun kv => kv.1 ++ "-" ++ kv.2)

/-- Embedding of `get_filename`: per-format fixed leading part, extension and
name part; the underscore-join skips empty components (`filter(None, ...)`);
all dots are removed from the joined stem (`.replace(".", "")`) before the
extension is appended. -/
def get_filename (file_type file_key : String)
    (matrix_combo : List (String × String)) : String :=
  let parts :=
    if file_type = OutputTypes.CONDA then
      ("", ".yaml", file_key, comboSuffix matrix_combo)
    else if file_type = OutputTypes.REQUIREMENTS then
      ("requirements", ".txt", file_key, comboSuffix matrix_combo)
    else if file_type = OutputTypes.PYPROJECT then
      ("", ".toml", OutputTypes.PYPROJECT, "")
    else ("", "", file_key, comboSuffix matrix_combo)
  match parts with
  | (ftp, ext, fnp, suf) =>
    removeDots (String.intercalate "_" (([ftp, fnp, suf]).filter
      (fun s => s ≠ ""))) ++ ext

/-- **C10.** Every "." occurring in the joined stem (per-format leading part,
file key and axis-value suffix) is deleted before the format extension is
appended — the extension keeps its dot since it is appended after the
deletion; for the pyproject format the result is exactly "pyproject.toml"
for every file key and combination. -/
theorem claim_C10_get_filename :
    ∀ (file_key : String) (combo : List (String × String)),
      get_filename OutputTypes.PYPROJECT file_key combo = "pyproject.toml" ∧
      get_filename OutputTypes.CONDA file_key combo =
        removeDots (String.intercalate "_"
          ((["", file_key, comboSuffix combo]).filter (fun s => s ≠ ""))) ++ ".yaml" ∧
      get_filename OutputTypes.REQUIREMENTS file_key combo =
        removeDots (String.intercalate "_"
          ((["requirements", file_key, comboSuffix combo]).filter
            (fun s => s ≠ ""))) ++ ".txt" ∧
      ∀ s : String, ((removeDots s).data.all (fun c => c ≠ '.')) = true := by
  intro file_key combo
  refine ⟨rfl, rfl, rfl, ?_⟩
  intro s
  rw [List.all_eq_true]
  intro c hc
  exact (List.mem_filter.mp hc).2

/-- Witness for C10: a dotted axis value "11.5" loses its dot in the stem
while the extension keeps its own. -/
theorem claim_C10_get_filename_witness :
    get_filename OutputTypes.CONDA "all" [("cuda", "11.5")] = "all_cuda-115.yaml" := by
  rw [(claim_C10_get_filename "all" [("cuda", "11.5")]).2.1]
  decide

/-! ### Header injection for the in-place-edited format
(`write_output`, lines 481-502, dict branch)

The tomlkit document is modelled by its serialization split into lines
(lines never contain a newline, so comparing the joined first two lines with
the two-line stripped header is comparing the line lists); prepending
`tomlkit.comment(line[2:])` entries to `data.body` prepends exactly the
header lines to the serialization. -/

/-- The in-place-document branch of `write_output`: prepend the two header
lines unless the first two lines already equal them. -/
def write_output_toml (h1 h2 : String) (docLines : List String) : List String :=
  if docLines.take 2 = [h1, h2] then docLines else h1 :: h2 :: docLines

/-- **C8.** For the in-place-edited (pyproject) format, `write_output`
prepends the two header comment lines iff the first two lines of the current
serialization do not already equal the expected header; hence writing an
already-headered document inserts no duplicate header (idempotent
re-injection). -/
theorem claim_C8_write_output_header :
    ∀ (h1 h2 : String) (doc : List String),
      (doc.take 2 = [h1, h2] → write_output_toml h1 h2 doc = doc) ∧
      (doc.take 2 ≠ [h1, h2] → write_output_toml h1 h2 doc = h1 :: h2 :: doc) ∧
      write_output_toml h1 h2 (write_output_toml h1 h2 doc) =
        write_output_toml h1 h2 doc := by
  intro h1 h2 doc
  refine ⟨fun h => by rw [write_output_toml, if_pos h],
    fun h => by rw [write_output_toml, if_neg h], ?_⟩
  by_cases h : doc.take 2 = [h1, h2]
  · have hin : write_output_toml h1 h2 doc = doc := by
      rw [write_output_toml, if_pos h]
    rw [hin]
    exact hin
  · have hin : write_output_toml h1 h2 doc = h1 :: h2 :: doc := by
      rw [write_output_toml, if_neg h]
    rw [hin]
    rw [write_output_toml, if_pos (by simp)]

/-- Witness for C8: one already-headered and one unheadered concrete
document. -/
theorem claim_C8_write_output_header_witness :
    write_output_toml "# generated" "# edit the config" 
      ["# generated", "# edit the config", "x = 1"] =
      ["# generated", "# edit the config", "x = 1"] ∧
    write_output_toml "# generated" "# edit the config" ["x = 1"] =
      ["# generated", "# edit the config", "x = 1"] :=
  ⟨(claim_C8_write_output_header "# generated" "# edit the config"
      ["# generated", "# edit the config", "x = 1"]).1 (by decide),
    (claim_C8_write_output_header "# generated" "# edit the config"
      ["x = 1"]).2.1 (by decide)⟩

/-! ### Specific-rule resolution (`make_dependency_files`, lines 402-445)

The inner loop over `specific_entry["matrices"]`: record condition-less
sub-rules as the fallback (last one observed wins), append the packages of a
matching conditioned sub-rule, raise on a second conditioned match, and at
the end use the fallback (or raise) when nothing matched. -/

/-- One sub-rule of a specific rule.  `matrix = []` models a falsy
`specific_matrices_entry.get("matrix", None)` (key absent, `None`, or an
empty dict); `packages = none` models an absent or `None` "packages" key
(`specific_matrices_entry.get("packages", []) or []`). -/
structure MatrixEntry where
  matrix : List (String × String)
  packages : Option (List Dep)
deriving DecidableEq

/-- The package list of a sub-rule (`.get("packages", []) or []`). -/
def pkgsOf (e : MatrixEntry) : List Dep := e.packages.getD []

/-- Python repr of a combination dict as interpolated into the f-string
error messages: `{'k': 'v', ...}`. -/
def pyReprCombo (c : List (String × String)) : String :=
  "\x7b" ++ String.intercalate ", "
    (c.map fun kv => "'" ++ kv.1 ++ "': '" ++ kv.2 ++ "'") ++ "\x7d"

/-- `f"Found multiple matches for matrix {matrix_combo}"` (line 427) — note
that this message does not mention the include name. -/
def msg_multiple_matches (matrix_combo : List (String × String)) : String :=
  "Found multiple matches for matrix " ++ pyReprCombo matrix_combo

/-- `f"No matching matrix found in '{include}' for: {matrix_combo}"`
(line 444). -/
def msg_no_matching (inc : String) (matrix_combo : List (String × String)) : String :=
  "No matching matrix found in '" ++ inc ++ "' for: " ++ pyReprCombo matrix_combo

/-- Is `sub` a contiguous sublist of the second argument? -/
def containsSub (sub : List Char) : List Char → Bool
  | [] => sub.isEmpty
  | c :: t => sub.isPrefixOf (c :: t) || containsSub sub t

/-- Python `sub in s` on strings. -/
def strContains (s sub : String) : Bool := containsSub sub.data s.data

/-- The `for specific_matrices_entry in specific_entry["matrices"]` loop,
with its `found`/`fallback_entry`/accumulated-packages state. -/
def resolve_go (inc : String) (combo : List (String × String)) :
    List MatrixEntry → List Dep → Bool → Option MatrixEntry →
    Except String (List Dep)
  | [], deps, found, fb =>
    if found then .ok deps
    else match fb with
      | some f => .ok (deps ++ pkgsOf f)
      | none => .error (msg_no_matching inc combo)
  | e :: es, deps, found, fb =>
    if e.matrix.isEmpty then resolve_go inc combo es deps found (some e)
    else if should_use_specific_entry combo e.matrix then
      if found then .error (msg_multiple_matches combo)
      else resolve_go inc combo es (deps ++ pkgsOf e) true fb
    else resolve_go inc combo es deps found fb

/-- Resolution of one specific rule against one combination: the packages it
contributes, or the configuration error it raises. -/
def resolve_specific (inc : String) (combo : List (String × String))
    (matrices : List MatrixEntry) : Except String (List Dep) :=
  resolve_go inc combo matrices [] false none

/-- The conditioned sub-rules whose condition matches the combination. -/
def matchedEntries (combo : List (String × String)) (es : List MatrixEntry) :
    List MatrixEntry :=
  es.filter (fun e => !e.matrix.isEmpty && should_use_specific_entry combo e.matrix)

/-- The fallback recorded after scanning `es` starting from `fb`: the last
condition-less sub-rule, if any. -/
def lastFallback (es : List MatrixEntry) (fb : Option MatrixEntry) :
    Option MatrixEntry :=
  es.foldl (fun acc e => if e.matrix.isEmpty then some e else acc) fb

/-- Full characterization of the sub-rule scanning loop in terms of the
matching conditioned sub-rules and the recorded fallback. -/
theorem resolve_go_spec (inc : String) (combo : List (String × String)) :
    ∀ (es : List MatrixEntry) (deps : List Dep) (found : Bool)
      (fb : Option MatrixEntry),
      resolve_go inc combo es deps found fb =
        if found then
          (if (matchedEntries combo es).isEmpty then Except.ok deps
           else .error (msg_multiple_matches combo))
        else
          match matchedEntries combo es with
          | [] =>
            (match lastFallback es fb with
             | some f => .ok (deps ++ pkgsOf f)
             | none => .error (msg_no_matching inc combo))
          | [m] => .ok (deps ++ pkgsOf m)
          | _ :: _ :: _ => .error (msg_multiple_matches combo)
  | [], deps, found, fb => by
    cases found <;> simp [resolve_go, matchedEntries, lastFallback]
  | e :: es, deps, found, fb => by
    by_cases he : e.matrix.isEmpty
    · have he2 : e.matrix = [] := by
        cases hmx : e.matrix with
        | nil => rfl
        | cons a t => rw [hmx] at he; simp [List.isEmpty] at he
      have hm : matchedEntries combo (e :: es) = matchedEntries combo es := by
        simp [matchedEntries, List.filter_cons, he]
      have hf : lastFallback (e :: es) fb = lastFallback es (some e) := by
        simp [lastFallback, List.foldl_cons, he2]
      rw [resolve_go, if_pos he, resolve_go_spec inc combo es deps found (some e),
        hm, hf]
    · by_cases hs : should_use_specific_entry combo e.matrix = true
      · have hm : matchedEntries combo (e :: es) = e :: matchedEntries combo es := by
          simp [matchedEntries, List.filter_cons, he, hs]
      
        rw [resolve_go, if_neg he, if_pos hs, hm]
        cases found with
        | true =>
          rw [if_pos rfl, if_pos rfl]
          simp [List.isEmpty]
        | false =>
          rw [if_neg (by simp), if_neg (by simp),
            resolve_go_spec inc combo es (deps ++ pkgsOf e) true fb, if_pos rfl]
          cases hme : matchedEntries combo es with
          | nil => simp [List.isEmpty]
          | cons m ms => simp [List.isEmpty]
      · have he2 : ¬ e.matrix = [] := by
          intro hc
          rw [hc] at he
          simp [List.isEmpty] at he
        have hm : matchedEntries combo (e :: es) = matchedEntries combo es := by
          simp [matchedEntries, List.filter_cons, he, hs]
        have hf : lastFallback (e :: es) fb = lastFallback es fb := by
          simp [lastFallback, List.foldl_cons, he2]
        rw [resolve_go, if_neg he, if_neg (by simp [hs]),
          resolve_go_spec inc combo es deps found fb, hm, hf]

/-- **C2 (amended).** For one specific rule and one combination, resolution
raises a configuration error iff more than one conditioned sub-rule matches
the combination (the error naming only the combination — the amendment: the
`"Found multiple matches..."` message does not name the include), or zero
conditioned sub-rules match and no fallback was recorded (that error naming
both the include and the combination); when zero conditioned sub-rules match
but a fallback was recorded, the fallback's packages (possibly empty) are
appended and no error is raised. -/
theorem claim_C2_resolution_errors :
    ∀ (inc : String) (combo : List (String × String)) (es : List MatrixEntry),
      ((∃ e, resolve_specific inc combo es = .error e) ↔
        1 < (matchedEntries combo es).length ∨
          (matchedEntries combo es = [] ∧ lastFallback es none = none)) ∧
      (1 < (matchedEntries combo es).length →
        resolve_specific inc combo es = .error (msg_multiple_matches combo)) ∧
      (matchedEntries combo es = [] → lastFallback es none = none →
        resolve_specific inc combo es = .error (msg_no_matching inc combo)) ∧
      (∀ f, matchedEntries combo es = [] → lastFallback es none = some f →
        resolve_specific inc combo es = .ok (pkgsOf f)) := by
  intro inc combo es
  rw [resolve_specific, resolve_go_spec inc combo es [] false none, if_neg (by simp)]
  cases hme : matchedEntries combo es with
  | nil =>
    cases hfb : lastFallback es none with
    | none =>
      refine ⟨⟨fun _ => Or.inr ⟨rfl, rfl⟩, fun _ => ⟨_, rfl⟩⟩, ?_, ?_, ?_⟩
      · intro h
        simp at h
      · intro _ _
        rfl
      · intro f _ hf
        cases hf
    | some f =>
      refine ⟨⟨?_, ?_⟩, ?_, ?_, ?_⟩
      · rintro ⟨e, he⟩
        cases he
      · rintro (h | ⟨_, h⟩)
        · simp at h
        · cases h
      · intro h
        simp at h
      · intro _ h
        cases h
      · intro g _ hg
        have hfg : f = g := Option.some.inj hg
        subst hfg
        simp
  | cons m ms =>
    cases ms with
    | nil =>
      refine ⟨⟨?_, ?_⟩, ?_, ?_, ?_⟩
      · rintro ⟨e, he⟩
        cases he
      · rintro (h | ⟨h, _⟩)
        · simp at h
        · cases h
      · intro h
        simp at h
      · intro h
        cases h
      · intro f h
        cases h
    | cons m2 ms2 =>
      refine ⟨⟨fun _ => Or.inl (by simp), fun _ => ⟨_, rfl⟩⟩, fun _ => rfl, ?_, ?_⟩
      · intro h
        cases h
      · intro f h
        cases h

/-- Counterexample for C2 as stated: at a combination matched by two
conditioned sub-rules the raised error is
`"Found multiple matches for matrix {'cuda': '11'}"`, which names the
combination but does *not* contain the include name ("build"), contradicting
"the error naming the include and the combination"; by contrast the
no-matching-sub-rule error does contain the include name. -/
theorem claim_C2_resolution_errors_counterexample :
    resolve_specific "build" [("cuda", "11")]
      [⟨[("cuda", "11")], some [Dep.str "a"]⟩,
        ⟨[("cuda", "11")], some [Dep.str "b"]⟩] =
      .error (msg_multiple_matches [("cuda", "11")]) ∧
    strContains (msg_multiple_matches [("cuda", "11")]) "build" = false ∧
    strContains (msg_no_matching "build" [("cuda", "11")]) "build" = true :=
  ⟨rfl, by decide, by decide⟩

/-- Witness for C2: the three outcomes at concrete inputs. -/
theorem claim_C2_resolution_errors_witness :
    resolve_specific "build" [("cuda", "11")] [⟨[], some [Dep.str "f"]⟩] =
      .ok [Dep.str "f"] ∧
    resolve_specific "build" [("cuda", "11")]
      [⟨[("cuda", "12")], some [Dep.str "a"]⟩] =
      .error (msg_no_matching "build" [("cuda", "11")]) ∧
    resolve_specific "build" [("cuda", "11")]
      [⟨[("cuda", "11")], some [Dep.str "a"]⟩,
        ⟨[("cuda", "11")], some [Dep.str "b"]⟩] =
      .error (msg_multiple_matches [("cuda", "11")]) :=
  ⟨(claim_C2_resolution_errors "build" [("cuda", "11")]
      [⟨[], some [Dep.str "f"]⟩]).2.2.2 ⟨[], some [Dep.str "f"]⟩
      (by decide) (by decide),
    (claim_C2_resolution_errors "build" [("cuda", "11")]
      [⟨[("cuda", "12")], some [Dep.str "a"]⟩]).2.2.1 (by decide) (by decide),
    (claim_C2_resolution_errors "build" [("cuda", "11")]
      [⟨[("cuda", "11")], some [Dep.str "a"]⟩,
        ⟨[("cuda", "11")], some [Dep.str "b"]⟩]).2.1 (by decide)⟩

/-! ### C9: last-fallback-wins -/

theorem getLast?_cons_or {α : Type} (a : α) :
    ∀ l : List α, (a :: l).getLast? = l.getLast?.or (some a)
  | [] => rfl
  | b :: bs => by
    rw [List.getLast?_cons_cons, getLast?_cons_or b bs]
    cases hbs : bs.getLast? with
    | none => rfl
    | some x => rfl

/-- The recorded fallback is the last condition-less sub-rule (else the
initial value). -/
theorem lastFallback_eq_getLast? :
    ∀ (es : List MatrixEntry) (fb : Option MatrixEntry),
      lastFallback es fb =
        ((es.filter (fun e => e.matrix.isEmpty)).getLast?).or fb
  | [], fb => rfl
  | e :: es, fb => by
    by_cases he : e.matrix.isEmpty
    · have he2 : e.matrix = [] := by
        cases hmx : e.matrix with
        | nil => rfl
        | cons a t => rw [hmx] at he; simp [List.isEmpty] at he
      rw [show lastFallback (e :: es) fb = lastFallback es (some e) by
          simp [lastFallback, List.foldl_cons, he2],
        lastFallback_eq_getLast? es (some e),
        List.filter_cons_of_pos (by simpa using he), getLast?_cons_or]
      cases hg : (es.filter (fun e => e.matrix.isEmpty)).getLast? with
      | none => rfl
      | some x => rfl
    · have he2 : ¬ e.matrix = [] := by
        intro hc
        rw [hc] at he
        simp [List.isEmpty] at he
      rw [show lastFallback (e :: es) fb = lastFallback es fb by
          simp [lastFallback, List.foldl_cons, he2],
        lastFallback_eq_getLast? es fb,
        List.filter_cons_of_neg (by simpa using he)]

theorem mem_of_getLast?_eq_some {α : Type} :
    ∀ {l : List α} {a : α}, l.getLast? = some a → a ∈ l
  | [], _, h => by cases h
  | [x], a, h => by
    rw [show ([x] : List α).getLast? = some x from rfl] at h
    rw [List.mem_singleton]
    exact (Option.some.inj h).symm
  | _ :: y :: t, a, h => by
    rw [List.getLast?_cons_cons] at h
    exact List.mem_cons_of_mem _ (mem_of_getLast?_eq_some h)

theorem lastFallback_isEmpty :
    ∀ (es : List MatrixEntry) {f : MatrixEntry},
      lastFallback es none = some f → f.matrix.isEmpty = true := by
  intro es f h
  rw [lastFallback_eq_getLast?] at h
  cases hg : (es.filter (fun e => e.matrix.isEmpty)).getLast? with
  | none => rw [hg] at h; cases h
  | some g =>
    rw [hg] at h
    have hgf : g = f := Option.some.inj h
    subst hgf
    have : g ∈ es.filter (fun e => e.matrix.isEmpty) := by
      cases hfl : es.filter (fun e => e.matrix.isEmpty) with
      | nil => rw [hfl] at hg; cases hg
      | cons a t =>
        rw [hfl] at hg
        exact mem_of_getLast?_eq_some hg
    exact (List.mem_filter.mp this).2

theorem matchedEntries_append (combo : List (String × String))
    (a b : List MatrixEntry) :
    matchedEntries combo (a ++ b) = matchedEntries combo a ++ matchedEntries combo b := by
  simp [matchedEntries, List.filter_append]

theorem matchedEntries_filter_conditioned (combo : List (String × String)) :
    ∀ es : List MatrixEntry,
      matchedEntries combo (es.filter (fun e => !e.matrix.isEmpty)) =
        matchedEntries combo es
  | [] => rfl
  | e :: es => by
    by_cases he : e.matrix.isEmpty
    · rw [List.filter_cons_of_neg (by simp [he]),
        matchedEntries_filter_conditioned combo es,
        show matchedEntries combo (e :: es) = matchedEntries combo es by
          simp [matchedEntries, List.filter_cons, he]]
    · by_cases hs : should_use_specific_entry combo e.matrix = true
      · rw [List.filter_cons_of_pos (by simp [he]),
          show matchedEntries combo (e :: es.filter (fun e => !e.matrix.isEmpty))
            = e :: matchedEntries combo (es.filter (fun e => !e.matrix.isEmpty)) by
              simp [matchedEntries, List.filter_cons, he, hs],
          matchedEntries_filter_conditioned combo es,
          show matchedEntries combo (e :: es) = e :: matchedEntries combo es by
            simp [matchedEntries, List.filter_cons, he, hs]]
      · rw [List.filter_cons_of_pos (by simp [he]),
          show matchedEntries combo (e :: es.filter (fun e => !e.matrix.isEmpty))
            = matchedEntries combo (es.filter (fun e => !e.matrix.isEmpty)) by
              simp [matchedEntries, List.filter_cons, he, hs],
          matchedEntries_filter_conditioned combo es,
          show matchedEntries combo (e :: es) = matchedEntries combo es by
            simp [matchedEntries, List.filter_cons, he, hs]]

theorem lastFallback_filter_conditioned :
    ∀ (es : List MatrixEntry) (fb : Option MatrixEntry),
      lastFallback (es.filter (fun e => !e.matrix.isEmpty)) fb = fb
  | [], _ => rfl
  | e :: es, fb => by
    by_cases he : e.matrix.isEmpty
    · rw [List.filter_cons_of_neg (by simp [he]),
        lastFallback_filter_conditioned es fb]
    · have he2 : ¬ e.matrix = [] := by
        intro hc
        rw [hc] at he
        simp [List.isEmpty] at he
      rw [List.filter_cons_of_pos (by simp [he]),
        show lastFallback (e :: es.filter (fun e => !e.matrix.isEmpty)) fb
          = lastFallback (es.filter (fun e => !e.matrix.isEmpty)) fb by
            simp [lastFallback, List.foldl_cons, he2],
        lastFallback_filter_conditioned es fb]

theorem lastFallback_append (a b : List MatrixEntry) (fb : Option MatrixEntry) :
    lastFallback (a ++ b) fb = lastFallback b (lastFallback a fb) :=
  List.foldl_append _ _ a b

/-- **C9.** Within one specific rule, only the last condition-less sub-rule
(in declaration order) is kept as the fallback: deleting every condition-less
sub-rule except the last (moved to the end) never changes the resolution
result, so the packages of earlier condition-less sub-rules are never
appended; and when no conditioned sub-rule matches, the packages appended are
exactly those of the last condition-less sub-rule. -/
theorem claim_C9_fallback_last_wins :
    ∀ (inc : String) (combo : List (String × String)) (es : List MatrixEntry),
      resolve_specific inc combo es =
        resolve_specific inc combo
          (es.filter (fun e => !e.matrix.isEmpty) ++ (lastFallback es none).toList) ∧
      (∀ f, matchedEntries combo es = [] →
        (es.filter (fun e => e.matrix.isEmpty)).getLast? = some f →
        resolve_specific inc combo es = .ok (pkgsOf f)) := by
  intro inc combo es
  constructor
  · rw [resolve_specific, resolve_specific, resolve_go_spec, resolve_go_spec]
    have hm : matchedEntries combo
        (es.filter (fun e => !e.matrix.isEmpty) ++ (lastFallback es none).toList)
        = matchedEntries combo es := by
      rw [matchedEntries_append, matchedEntries_filter_conditioned]
      cases hfb : lastFallback es none with
      | none => simp [matchedEntries]
      | some f =>
        have hf : f.matrix.isEmpty = true := lastFallback_isEmpty es hfb
        simp [matchedEntries, Option.toList, List.filter_cons, hf]
    have hl : lastFallback
        (es.filter (fun e => !e.matrix.isEmpty) ++ (lastFallback es none).toList)
        none = lastFallback es none := by
      rw [lastFallback_append, lastFallback_filter_conditioned]
      cases hfb : lastFallback es none with
      | none => rfl
      | some f =>
        have hf : f.matrix.isEmpty = true := lastFallback_isEmpty es hfb
        have hf2 : f.matrix = [] := by
          cases hmx : f.matrix with
          | nil => rfl
          | cons a t => rw [hmx] at hf; simp [List.isEmpty] at hf
        simp [Option.toList, lastFallback, List.foldl_cons, hf2]
    rw [hm, hl]
  · intro f hme hlast
    rw [resolve_specific, resolve_go_spec, if_neg (by simp), hme]
    rw [show lastFallback es none = some f by
      rw [lastFallback_eq_getLast?, hlast]; rfl]
    simp

/-- Witness for C9: with two condition-less sub-rules and no conditioned
match, the packages of the *last* one are used. -/
theorem claim_C9_fallback_last_wins_witness :
    resolve_specific "dep" [("cuda", "11")]
      [⟨[], some [Dep.str "early"]⟩, ⟨[("cuda", "12")], some [Dep.str "c"]⟩,
        ⟨[], some [Dep.str "late"]⟩] = .ok [Dep.str "late"] :=
  (claim_C9_fallback_last_wins "dep" [("cuda", "11")]
      [⟨[], some [Dep.str "early"]⟩, ⟨[("cuda", "12")], some [Dep.str "c"]⟩,
        ⟨[], some [Dep.str "late"]⟩]).2
    ⟨[], some [Dep.str "late"]⟩ (by decide) (by decide)

/-! ### Requested output formats (`get_requested_output_types`, lines 165-201) -/

/-- A file's `output` field: a single string or a list of strings. -/
inductive OutputField where
  | str (s : String)
  | list (l : List String)
deriving DecidableEq

/-- `output if isinstance(output, list) else [output]`. -/
def outputToList : OutputField → List String
  | .str s => [s]
  | .list l => l

/-- Modelled from the spec: the member order of the `OutputTypes` enum (used
only in the error message text) is not recoverable from `src/`. -/
def OUTPUT_ENUM_VALUES : List String :=
  [OutputTypes.NONE, OutputTypes.CONDA, OutputTypes.REQUIREMENTS,
    OutputTypes.PYPROJECT]

/-- `[str(x) for x in OutputTypes if not x == OutputTypes.NONE]`. -/
def NON_NONE_OUTPUT_ENUM_VALUES : List String :=
  [OutputTypes.CONDA, OutputTypes.REQUIREMENTS, OutputTypes.PYPROJECT]

/-- The message of line 193. -/
def msg_none_combined : String :=
  "'output: [none]' cannot be combined with any other values."

/-- The message of lines 196-200. -/
def msg_unknown_output : String :=
  "'output' key can only be " ++
    String.intercalate ", " (OUTPUT_ENUM_VALUES.map (fun x => "'" ++ x ++ "'")) ++
    " or a list of the non-'" ++ OutputTypes.NONE ++ "' values."

/-- Embedding of `get_requested_output_types`: `["none"]` exactly yields the
empty format list; "none" among several entries is an error; any entry
outside the non-none enum values is an error; otherwise the request is
returned unchanged (`any(...)` is modelled as the equivalent bounded
existential). -/
def get_requested_output_types (output : OutputField) :
    Except String (List String) :=
  if outputToList output = [OutputTypes.NONE] then .ok []
  else if 1 < (outputToList output).length ∧ OutputTypes.NONE ∈ outputToList output
    then .error msg_none_combined
  else if ∃ v ∈ outputToList output, v ∉ NON_NONE_OUTPUT_ENUM_VALUES
    then .error msg_unknown_output
  else .ok (outputToList output)

/-! ### The orchestrator (`make_dependency_files`, lines 345-509)

The configuration data model follows §3 of the spec / the shapes consumed by
the source.  The `dependencies` catalog is modelled as a total function
(a missing include raises a `KeyError` in Python; no claim concerns that
path).  The YAML/TOML codecs are opaque external services (spec §1), so
`make_dependency_file` renders the conda and pyproject bodies coarsely; every
claim about this function's callers concerns only control flow and paths. -/

/-- One entry of `dependencies.$INC.common`. -/
structure CommonEntry where
  output_types : List String
  packages : List Dep
deriving DecidableEq

/-- One entry of `dependencies.$INC.specific`. -/
structure SpecificEntry where
  output_types : List String
  matrices : List MatrixEntry
deriving DecidableEq

/-- One entry of the `dependencies` catalog. -/
structure DependencyEntry where
  common : List CommonEntry
  specific : List SpecificEntry
deriving DecidableEq

/-- The `extras` side-channel of a file entry (`table` and optional `key`). -/
structure Extras where
  table : String
  key : Option String
deriving DecidableEq

/-- One `[files.$KEY]` entry. -/
structure FileConfig where
  includes : List String
  output : OutputField
  matrix : List (String × List String)
  extras : Option Extras
  conda_dir : Option String
  requirements_dir : Option String
  pyproject_dir : Option String
deriving DecidableEq

/-- Coarse model of a tomlkit document: the `project.name` field plus the
dotted-table/key assignments written by the generator. -/
structure TomlDoc where
  name : String
  sections : List (String × List Dep)
deriving DecidableEq

/-- An in-progress output artifact: accumulated text, or an in-place-edited
document. -/
inductive FileData where
  | text (s : String)
  | toml (d : TomlDoc)
deriving DecidableEq

/-- The parsed `dependencies.yaml` configuration. -/
structure Config where
  channels : Option (List String)
  files : List (String × FileConfig)
  dependencies : String → DependencyEntry

/-- Assoc-list update: replace in place, else append (Python `dict[k] = v`). -/
def setAssoc {β : Type} : List (String × β) → String → β → List (String × β)
  | [], k, v => [(k, v)]
  | p :: ps, k, v => if p.1 = k then (p.1, v) :: ps else p :: setAssoc ps k v

/-- Embedding of `get_output_dir` (lines 253-283), with `os.path.join`
modelled as "/"-concatenation and the config file's directory passed
directly; the per-format defaults come from the absent `constants.py` and
are passed as arguments. -/
def get_output_dir (file_type config_dir : String) (file_config : FileConfig)
    (dcd drd dpd : String) : String :=
  if file_type = OutputTypes.CONDA then
    config_dir ++ "/" ++ file_config.conda_dir.getD dcd
  else if file_type = OutputTypes.REQUIREMENTS then
    config_dir ++ "/" ++ file_config.requirements_dir.getD drd
  else if file_type = OutputTypes.PYPROJECT then
    config_dir ++ "/" ++ file_config.pyproject_dir.getD dpd
  else config_dir

/-- Rendering of one dependency as a line (extra-group dicts are not written
by the line-oriented format, spec §4.6). -/
def depAsLine : Dep → Option String
  | .str s => some s
  | .dict _ => none

/-- Embedding of `make_dependency_file` (lines 93-162).  The conda branch
(YAML decode/update/encode) and the pyproject table navigation are rendered
coarsely — the codecs are opaque external services (spec §1) and no claim
depends on the body text; the requirements branch is the source's line
concatenation; the pyproject key default (`"requires"` for `build-system`,
else `"dependencies"`) is the source's. -/
def make_dependency_file (file_contents : FileData) (file_type name : String)
    (conda_channels : List String) (dependencies : List Dep)
    (extras : Option Extras) : FileData :=
  if file_type = OutputTypes.CONDA then
    match file_contents with
    | .text s =>
      .text (s ++ "name: " ++ name ++ "\nchannels: " ++
        String.intercalate "," conda_channels ++ "\ndependencies: " ++
        String.intercalate "," (dependencies.filterMap depAsLine) ++ "\n")
    | d => d
  else if file_type = OutputTypes.REQUIREMENTS then
    match file_contents with
    | .text s =>
      .text (s ++ String.intercalate "\n" (dependencies.filterMap depAsLine) ++ "\n")
    | d => d
  else if file_type = OutputTypes.PYPROJECT then
    match file_contents with
    | .toml d =>
      match extras with
      | some ex =>
        let key := ex.key.getD
          (if ex.table = "build-system" then "requires" else "dependencies")
        .toml { d with sections :=
          (setAssoc d.sections (ex.table ++ "." ++ key) dependencies) }
      | none => .toml d
    | d => d
  else file_contents

/-- The per-include collection loop (lines 394-445): common packages of the
current format, then each applicable specific entry resolved against the
combination. -/
def collect_include_deps (catalog : String → DependencyEntry)
    (file_type : String) (combo : List (String × String)) (inc : String) :
    Except String (List Dep) :=
  let entry := catalog inc
  let commonDeps := concatMapL CommonEntry.packages
    (entry.common.filter (fun ce => ce.output_types.contains file_type))
  (entry.specific.filter (fun se => se.output_types.contains file_type)).foldlM
    (fun deps se => do
      let pkgs ← resolve_specific inc combo se.matrices
      pure (deps ++ pkgs)) commonDeps

/-- The `for include in includes` loop. -/
def collect_deps (catalog : String → DependencyEntry) (file_type : String)
    (combo : List (String × String)) (includes : List String) :
    Except String (List Dep) :=
  includes.foldlM (fun deps inc => do
    let d ← collect_include_deps catalog file_type combo inc
    pure (deps ++ d)) []

/-- The body of the innermost loop (lines 389-479): collect and dedupe the
dependencies of one (file, format, combination) triple, then merge them into
the per-path results accumulator (initializing a fresh text body, or loading
and name-suffixing the pre-existing pyproject document via `fs`). -/
def process_combo (cfg : Config) (config_dir : String) (fs : String → TomlDoc)
    (cuda_suffix : String) (channels : List String) (dcd drd dpd : String)
    (file_key : String) (fc : FileConfig) (file_type : String)
    (results : List (String × FileData)) (combo : List (String × String)) :
    Except String (List (String × FileData)) := do
  let deps ← collect_deps cfg.dependencies file_type combo fc.includes
  let full_file_name := get_filename file_type file_key combo
  let output_dir := get_output_dir file_type config_dir fc dcd drd dpd
  let output_file_path := output_dir ++ "/" ++ full_file_name
  let current := match lookupA results output_file_path with
    | some d => d
    | none =>
      if file_type ≠ OutputTypes.PYPROJECT then FileData.text ""
      else
        let doc := fs output_file_path
        FileData.toml { doc with
          name := name_with_cuda_suffix doc.name (lookupA combo "cuda") cuda_suffix }
  pure (setAssoc results output_file_path
    (make_dependency_file current file_type full_file_name channels
      (dedupe deps) fc.extras))

/-- `parsed_config.get("channels", default_channels) or default_channels`
(line 376): the default applies when the key is absent or falsy (empty). -/
def resolve_channels (cfg : Config) (dch : List String) : List String :=
  match cfg.channels with
  | some (c :: cs) => c :: cs
  | _ => dch

/-- Phase one of `make_dependency_files`: the full file x format x
combination expansion building the per-path results map; any configuration
error aborts the whole phase. -/
def compute_results (cfg : Config) (config_dir : String) (fs : String → TomlDoc)
    (cuda_suffix : String) (dch : List String) (dcd drd dpd : String) :
    Except String (List (String × FileData)) :=
  cfg.files.foldlM (fun results fkv => do
    let file_types ← get_requested_output_types fkv.2.output
    file_types.foldlM (fun results file_type =>
      (grid fkv.2.matrix).foldlM
        (fun results combo =>
          process_combo cfg config_dir fs cuda_suffix (resolve_channels cfg dch)
            dcd drd dpd fkv.1 fkv.2 file_type results combo)
        results) results) []

/-- Embedding of `make_dependency_files`: compute all results, then — only
on success — emit one write per accumulated path (the source's final
`for path, data in results.items()` loop, lines 504-509).  The second
component reports the raised configuration error, if any. -/
def make_dependency_files (cfg : Config) (config_dir : String)
    (fs : String → TomlDoc) (cuda_suffix : String) (dch : List String)
    (dcd drd dpd : String) : List (String × FileData) × Option String :=
  match compute_results cfg config_dir fs cuda_suffix dch dcd drd dpd with
  | .error e => ([], some e)
  | .ok results => (results, none)

/-! ### Error propagation: configuration errors abort before any write -/

theorem bind_except_error_cases {α β : Type} {m : Except String α}
    {k : α → Except String β} {e : String} (h : (m >>= k) = .error e) :
    m = .error e ∨ ∃ a, m = .ok a ∧ k a = .error e := by
  cases m with
  | error e2 =>
    left
    simp only [bind, Except.bind] at h
    rw [Except.error.injEq] at h
    rw [h]
  | ok a =>
    right
    refine ⟨a, rfl, ?_⟩
    simp only [bind, Except.bind] at h
    exact h

theorem foldlM_except_error {α β : Type} (f : β → α → Except String β) (e : String) :
    ∀ (l : List α) (b : β), l.foldlM f b = .error e →
      ∃ b' a, a ∈ l ∧ f b' a = .error e
  | [], _, h => by
    rw [List.foldlM_nil] at h
    exact Except.noConfusion h
  | x :: xs, b, h => by
    rw [List.foldlM_cons] at h
    rcases bind_except_error_cases h with hx | ⟨b2, hb2, hrest⟩
    · exact ⟨b, x, List.mem_cons_self _ _, hx⟩
    · rcases foldlM_except_error f e xs b2 hrest with ⟨b', a, ha, hfa⟩
      exact ⟨b', a, List.mem_cons_of_mem _ ha, hfa⟩

theorem get_requested_output_types_error_shape {output : OutputField} {e : String}
    (h : get_requested_output_types output = .error e) :
    e = msg_none_combined ∨ e = msg_unknown_output := by
  rw [get_requested_output_types] at h
  by_cases h1 : outputToList output = [OutputTypes.NONE]
  · rw [if_pos h1] at h
    exact Except.noConfusion h
  · rw [if_neg h1] at h
    by_cases h2 : 1 < (outputToList output).length ∧
        OutputTypes.NONE ∈ outputToList output
    · rw [if_pos h2] at h
      exact Or.inl (Except.error.inj h).symm
    · rw [if_neg h2] at h
      by_cases h3 : ∃ v ∈ outputToList output, v ∉ NON_NONE_OUTPUT_ENUM_VALUES
      · rw [if_pos h3] at h
        exact Or.inr (Except.error.inj h).symm
      · rw [if_neg h3] at h
        exact Except.noConfusion h

theorem resolve_specific_error_shape {inc : String}
    {combo : List (String × String)} {es : List MatrixEntry} {e : String}
    (h : resolve_specific inc combo es = .error e) :
    e = msg_multiple_matches combo ∨ e = msg_no_matching inc combo := by
  rw [resolve_specific, resolve_go_spec inc combo es [] false none,
    if_neg (by simp)] at h
  cases hme : matchedEntries combo es with
  | nil =>
    rw [hme] at h
    cases hfb : lastFallback es none with
    | none =>
      rw [hfb] at h
      exact Or.inr (Except.error.inj h).symm
    | some f =>
      rw [hfb] at h
      exact Except.noConfusion h
  | cons m ms =>
    cases ms with
    | nil =>
      rw [hme] at h
      exact Except.noConfusion h
    | cons m2 ms2 =>
      rw [hme] at h
      exact Or.inl (Except.error.inj h).symm

theorem collect_include_deps_error_shape {catalog : String → DependencyEntry}
    {file_type : String} {combo : List (String × String)} {inc : String}
    {e : String} (h : collect_include_deps catalog file_type combo inc = .error e) :
    (∃ c, e = msg_multiple_matches c) ∨ ∃ i c, e = msg_no_matching i c := by
  rw [collect_include_deps] at h
  rcases foldlM_except_error _ e _ _ h with ⟨deps, se, _, hf⟩
  rcases bind_except_error_cases hf with hr | ⟨pkgs, _, hpure⟩
  · rcases resolve_specific_error_shape hr with h1 | h1
    · exact Or.inl ⟨combo, h1⟩
    · exact Or.inr ⟨inc, combo, h1⟩
  · exact Except.noConfusion hpure

theorem collect_deps_error_shape {catalog : String → DependencyEntry}
    {file_type : String} {combo : List (String × String)}
    {includes : List String} {e : String}
    (h : collect_deps catalog file_type combo includes = .error e) :
    (∃ c, e = msg_multiple_matches c) ∨ ∃ i c, e = msg_no_matching i c := by
  rw [collect_deps] at h
  rcases foldlM_except_error _ e _ _ h with ⟨deps, inc, _, hf⟩
  rcases bind_except_error_cases hf with hr | ⟨d, _, hpure⟩
  · exact collect_include_deps_error_shape hr
  · exact Except.noConfusion hpure

theorem process_combo_error_shape {cfg : Config} {config_dir : String}
    {fs : String → TomlDoc} {cuda_suffix : String} {channels : List String}
    {dcd drd dpd file_key : String} {fc : FileConfig} {file_type : String}
    {results : List (String × FileData)} {combo : List (String × String)}
    {e : String}
    (h : process_combo cfg config_dir fs cuda_suffix channels dcd drd dpd
      file_key fc file_type results combo = .error e) :
    (∃ c, e = msg_multiple_matches c) ∨ ∃ i c, e = msg_no_matching i c := by
  rw [process_combo] at h
  rcases bind_except_error_cases h with hr | ⟨deps, _, hpure⟩
  · exact collect_deps_error_shape hr
  · exact Except.noConfusion hpure

/-- The shape of every configuration error this core can raise: a malformed
`output` request, an ambiguous specific match, or a no-matching-sub-rule
condition. -/
def isConfigErrMsg (e : String) : Prop :=
  e = msg_none_combined ∨ e = msg_unknown_output ∨
    (∃ c, e = msg_multiple_matches c) ∨ ∃ i c, e = msg_no_matching i c

theorem compute_results_error_shape {cfg : Config} {config_dir : String}
    {fs : String → TomlDoc} {cuda_suffix : String} {dch : List String}
    {dcd drd dpd : String} {e : String}
    (h : compute_results cfg config_dir fs cuda_suffix dch dcd drd dpd = .error e) :
    isConfigErrMsg e := by
  rw [compute_results] at h
  rcases foldlM_except_error _ e _ _ h with ⟨rs, fkv, _, hf⟩
  rcases bind_except_error_cases hf with hg | ⟨fts, _, hinner⟩
  · rcases get_requested_output_types_error_shape hg with h1 | h1
    · exact Or.inl h1
    · exact Or.inr (Or.inl h1)
  · rcases foldlM_except_error _ e _ _ hinner with ⟨rs2, ft, _, hf2⟩
    rcases foldlM_except_error _ e _ _ hf2 with ⟨rs3, combo, _, hf3⟩
    rcases process_combo_error_shape hf3 with h1 | h1
    · exact Or.inr (Or.inr (Or.inl h1))
    · exact Or.inr (Or.inr (Or.inr h1))

/-- **C5.** Whenever the generation run raises a configuration error
(malformed output request, ambiguous specific match, or no matching sub-rule
without fallback), it aborts before any output file is written: the emitted
write list is empty, because the write loop of `make_dependency_files` runs
only on the successful completion of the full matrix x format x include
expansion (`compute_results`), whose value it then emits verbatim. -/
theorem claim_C5_no_partial_writes :
    ∀ (cfg : Config) (config_dir : String) (fs : String → TomlDoc)
      (cuda_suffix : String) (dch : List String) (dcd drd dpd : String),
      (∀ ws e, make_dependency_files cfg config_dir fs cuda_suffix dch dcd drd dpd
          = (ws, some e) → ws = [] ∧ isConfigErrMsg e) ∧
      (∀ ws, make_dependency_files cfg config_dir fs cuda_suffix dch dcd drd dpd
          = (ws, none) →
        compute_results cfg config_dir fs cuda_suffix dch dcd drd dpd = .ok ws) := by
  intro cfg config_dir fs cuda_suffix dch dcd drd dpd
  constructor
  · intro ws e h
    rw [make_dependency_files] at h
    cases hc : compute_results cfg config_dir fs cuda_suffix dch dcd drd dpd with
    | error e2 =>
      rw [hc] at h
      injection h with h1 h2
      exact ⟨h1.symm, Option.some.inj h2 ▸ compute_results_error_shape hc⟩
    | ok rs =>
      rw [hc] at h
      injection h with h1 h2
      exact Option.noConfusion h2
  · intro ws h
    rw [make_dependency_files] at h
    cases hc : compute_results cfg config_dir fs cuda_suffix dch dcd drd dpd with
    | error e2 =>
      rw [hc] at h
      injection h with h1 h2
      exact Option.noConfusion h2
    | ok rs =>
      rw [hc] at h
      injection h with h1 h2
      rw [h1]

/-- A concrete configuration whose only file requests
`output: ["none", "requirements"]`. -/
def cfgBadOutput : Config :=
  { channels := none,
    files := [("all",
      { includes := [], output := .list ["none", "requirements"], matrix := [],
        extras := none, conda_dir := none, requirements_dir := none,
        pyproject_dir := none })],
    dependencies := fun _ => ⟨[], []⟩ }

/-- Witness for C5: the malformed-output configuration aborts with the
expected configuration error and an empty write list. -/
theorem claim_C5_no_partial_writes_witness : isConfigErrMsg msg_none_combined := by
  have hrun : make_dependency_files cfgBadOutput "." (fun _ => ⟨"pkg", []⟩)
      "-cu" ["conda-forge"] "conda" "requirements" "." =
      ([], some msg_none_combined) := rfl
  exact ((claim_C5_no_partial_writes cfgBadOutput "." (fun _ => ⟨"pkg", []⟩)
    "-cu" ["conda-forge"] "conda" "requirements" ".").1 [] msg_none_combined hrun).2

/-- **C6.** `get_requested_output_types` returns the empty list whenever the
requested output is the sentinel "none" alone; it raises a configuration
error whenever "none" appears among several requested identifiers, and
whenever some requested identifier is not a recognized (non-none) output
type; otherwise it returns the requested identifiers unchanged. -/
theorem claim_C6_requested_output_types :
    ∀ output : OutputField,
      (outputToList output = [OutputTypes.NONE] →
        get_requested_output_types output = .ok []) ∧
      (outputToList output ≠ [OutputTypes.NONE] →
        OutputTypes.NONE ∈ outputToList output →
        get_requested_output_types output = .error msg_none_combined) ∧
      (OutputTypes.NONE ∉ outputToList output →
        (∃ v ∈ outputToList output, v ∉ NON_NONE_OUTPUT_ENUM_VALUES) →
        get_requested_output_types output = .error msg_unknown_output) ∧
      (OutputTypes.NONE ∉ outputToList output →
        (∀ v ∈ outputToList output, v ∈ NON_NONE_OUTPUT_ENUM_VALUES) →
        get_requested_output_types output = .ok (outputToList output)) := by
  intro output
  refine ⟨?_, ?_, ?_, ?_⟩
  · intro h
    rw [get_requested_output_types, if_pos h]
  · intro hne hmem
    have hlen : 1 < (outputToList output).length := by
      cases hl : outputToList output with
      | nil => rw [hl] at hmem; cases hmem
      | cons x t =>
        cases t with
        | nil =>
          rw [hl] at hmem
          rw [List.mem_singleton] at hmem
          exact absurd (hl.trans (by rw [hmem])) hne
        | cons y t2 => simp [hl]
    rw [get_requested_output_types, if_neg hne, if_pos ⟨hlen, hmem⟩]
  · intro hnone hex
    have h1 : outputToList output ≠ [OutputTypes.NONE] := by
      intro hc
      exact hnone (hc ▸ List.mem_singleton.mpr rfl)
    have h2 : ¬ (1 < (outputToList output).length ∧
        OutputTypes.NONE ∈ outputToList output) := by
      rintro ⟨_, hm⟩
      exact hnone hm
    rw [get_requested_output_types, if_neg h1, if_neg h2, if_pos hex]
  · intro hnone hall
    have h1 : outputToList output ≠ [OutputTypes.NONE] := by
      intro hc
      exact hnone (hc ▸ List.mem_singleton.mpr rfl)
    have h2 : ¬ (1 < (outputToList output).length ∧
        OutputTypes.NONE ∈ outputToList output) := by
      rintro ⟨_, hm⟩
      exact hnone hm
    have h3 : ¬ ∃ v ∈ outputToList output, v ∉ NON_NONE_OUTPUT_ENUM_VALUES := by
      rintro ⟨v, hv, hnv⟩
      exact hnv (hall v hv)
    rw [get_requested_output_types, if_neg h1, if_neg h2, if_neg h3]

/-- Witness for C6: the four behaviors at concrete requests. -/
theorem claim_C6_requested_output_types_witness :
    get_requested_output_types (.list ["none"]) = .ok [] ∧
    get_requested_output_types (.list ["none", "requirements"]) =
      .error msg_none_combined ∧
    get_requested_output_types (.str "frobnicate") = .error msg_unknown_output ∧
    get_requested_output_types (.list ["requirements", "conda"]) =
      .ok ["requirements", "conda"] :=
  ⟨(claim_C6_requested_output_types (.list ["none"])).1 (by decide),
    (claim_C6_requested_output_types (.list ["none", "requirements"])).2.1
      (by decide) (by decide),
    (claim_C6_requested_output_types (.str "frobnicate")).2.2.1 (by decide)
      ⟨"frobnicate", by decide, by decide⟩,
    (claim_C6_requested_output_types (.list ["requirements", "conda"])).2.2.2
      (by decide) (by decide)⟩

end RDFG
